import Mathlib

/-! MemcloadGolang: a verification development of `main.go`.

The loader reads tab-separated log lines, parses each into an
`AppsInstalled` record, stores it in memcache under `devType:devId` with a
bounded number of attempts, tallies failures per file, and renames every
file whose path came back through its result channel.

Go strings are byte strings; they are modelled by Lean strings (sequences
of code points).  All separators and digits the program looks at are ASCII,
and a byte of a multi-byte UTF-8 sequence is never ASCII, so splitting and
digit tests agree on every valid UTF-8 input.
-/

namespace Memcload

/-! ## Constants (main.go, lines 23-27) -/

/-- The constant `MemcMaxAttempts = 3`. -/
def MemcMaxAttempts : Nat := 3

/-! ## Library functions used by the parser -/

/-- The pieces of a character sequence between occurrences of `sep`:
`strings.Split` for a one-byte separator.  An input without separator
gives one piece, the empty input gives one empty piece. -/
def splitChars (sep : Char) : List Char → List (List Char)
  | [] => [[]]
  | c :: cs =>
    if c = sep then [] :: splitChars sep cs
    else
      match splitChars sep cs with
      | [] => [[c]]
      | p :: ps => (c :: p) :: ps

/-- The call `strings.Split(s, sep)` with a one-byte separator. -/
def Split (s : String) (sep : Char) : List String :=
  (splitChars sep s.data).map String.mk

/-- The two errors `strconv.ParseUint` returns: `ErrSyntax` and `ErrRange`. -/
inductive NumError where
  | syntax_error
  | range_error
  deriving DecidableEq, Repr

/-- The byte operation `lower(c) = c | ('x' - 'X')` of package strconv. -/
def lower (c : Nat) : Nat := c ||| 0x20

/-- The digit loop of `strconv.ParseUint(s, 10, 32)`, over the bytes left
to read and the accumulator `n` (a uint64):
a byte in `'0'..'9'` is its digit, a letter is `10 + its position` (which is
not below the base), anything else is a syntax error; `n >= cutoff` or an
`n1` that wrapped around or exceeds `maxVal` is a range error. -/
def parseUintLoop (base cutoff maxVal : Nat) : List Char → Nat → Nat × Option NumError
  | [], n => (n, none)
  | c :: cs, n =>
    let b := c.toNat
    let digit : Option Nat :=
      if 48 ≤ b ∧ b ≤ 57 then some (b - 48)
      else if 97 ≤ lower b ∧ lower b ≤ 122 then some (lower b - 97 + 10)
      else none
    match digit with
    | none => (0, some .syntax_error)
    | some d =>
      if d ≥ base then (0, some .syntax_error)
      else if n ≥ cutoff then (maxVal, some .range_error)
      else
        let n10 := (n * base) % 2 ^ 64
        let n1 := (n10 + d) % 2 ^ 64
        if n1 < n10 ∨ n1 > maxVal then (maxVal, some .range_error)
        else parseUintLoop base cutoff maxVal cs n1

/-- The call `strconv.ParseUint(s, 10, 32)`, returning the value and the
error (`none` for `nil`): the empty string is a syntax error;
`cutoff = maxUint64/10 + 1` and `maxVal = 1<<32 - 1`. -/
def ParseUint (s : String) : Nat × Option NumError :=
  if s.data = [] then (0, some .syntax_error)
  else parseUintLoop 10 ((2 ^ 64 - 1) / 10 + 1) (2 ^ 32 - 1) s.data 0

/-! ## The record and its parser (main.go, lines 39-46 and 90-123) -/

/-- The struct `AppsInstalled`; `F` is the type of float64 values and
`apps` holds uint32 values. -/
structure AppsInstalled (F : Type) where
  devType : String
  devId : String
  lat : F
  lon : F
  apps : List Nat
  deriving DecidableEq, Repr

/-- The zero value of the struct, what `var appsInstalled AppsInstalled`
declares. -/
def AppsInstalled.zero {F : Type} [Zero F] : AppsInstalled F :=
  { devType := "", devId := "", lat := 0, lon := 0, apps := [] }

/-- The loop `for _, a := range appsList` of `ParseAppsinstalled`: a token
on which `ParseUint` fails is skipped, any other is appended as
`uint32(app)`. -/
def appendApps (apps : List Nat) : List String → List Nat
  | [] => apps
  | a :: rest =>
    match ParseUint a with
    | (_, some _) => appendApps apps rest
    | (app, none) => appendApps (apps ++ [app % 2 ^ 32]) rest

/-- The function `ParseAppsinstalled`.  It returns the record together with
the error (`none` for `nil`), as the Go function does.  `ParseFloat` is
`strconv.ParseFloat(·, 64)`, `none` when it returns an error. -/
def ParseAppsinstalled {F : Type} [Zero F] (ParseFloat : String → Option F) (line : String) :
    AppsInstalled F × Option String :=
  let appsInstalled : AppsInstalled F := AppsInstalled.zero
  match Split line '\t' with
  | [p0, p1, p2, p3, p4] =>
    let appsInstalled := { appsInstalled with devType := p0, devId := p1 }
    match ParseFloat p2 with
    | none => (appsInstalled, some "invalid geo coord `Lat`")
    | some lat =>
      let appsInstalled := { appsInstalled with lat := lat }
      match ParseFloat p3 with
      | none => (appsInstalled, some "invalid geo coord `Lon`")
      | some lon =>
        let appsInstalled := { appsInstalled with lon := lon }
        let appsList := Split p4 ','
        ({ appsInstalled with apps := appendApps appsInstalled.apps appsList }, none)
  | _ => (appsInstalled, some "invalid format line")

/-! ### What the specification says about field 5 -/

/-- A decimal digit. -/
def isDigit (c : Char) : Bool := decide (48 ≤ c.toNat ∧ c.toNat ≤ 57)

/-- The number a sequence of decimal digits denotes, most significant
digit first, continuing from `n`. -/
def decimalFrom (n : Nat) (cs : List Char) : Nat :=
  cs.foldl (fun acc c => 10 * acc + (c.toNat - 48)) n

/-- The number a string of decimal digits denotes. -/
def decimalValue (s : String) : Nat := decimalFrom 0 s.data

/-- A valid base-10 unsigned 32-bit integer in the specification's words:
non-empty, digits only, value at most 4294967295. -/
def validUint32 (s : String) : Bool :=
  decide (s.data ≠ []) && s.data.all isDigit && decide (decimalValue s ≤ 4294967295)

/-- The apps list the specification describes: the comma-separated tokens
of field 5 that are valid unsigned 32-bit integers, as numbers, in order. -/
def specApps (field5 : String) : List Nat :=
  (Split field5 ',').filterMap
    (fun tok => if validUint32 tok then some (decimalValue tok) else none)

/-- A concrete instance of the `ParseFloat` parameter for the examples:
plain decimal literals (an optional sign, digits, at most one point, at
least one digit), a fragment of what `strconv.ParseFloat` accepts.  The
value is kept as the exact rational the digits denote; no property below
computes with coordinates. -/
def decimalLiteral (s : String) : Option ℚ :=
  let (neg, body) : Bool × List Char :=
    match s.data with
    | '-' :: cs => (true, cs)
    | '+' :: cs => (false, cs)
    | cs => (false, cs)
  match splitChars '.' body with
  | [ip] =>
    if ip ≠ [] ∧ ip.all isDigit then
      some (mkRat (if neg then - (decimalFrom 0 ip : Int) else decimalFrom 0 ip) 1)
    else none
  | [ip, fp] =>
    if (ip ≠ [] ∨ fp ≠ []) ∧ ip.all isDigit ∧ fp.all isDigit then
      some (mkRat (if neg then - (decimalFrom 0 (ip ++ fp) : Int) else decimalFrom 0 (ip ++ fp))
        (10 ^ fp.length))
    else none
  | _ => none

/-! ## Storing a record (main.go, lines 55-87) -/

/-- Modelled from the spec: the message type `appsinstalled.UserApps` of the
repository's generated package `appsinstalled`, which is not among the
sources; the specification gives its schema as `{lat, lon, appIds}` and
`InsertAppsInstalled` sets its fields `Lon`, `Lat` and `Apps`. -/
structure UserApps (F : Type) where
  Lat : F
  Lon : F
  Apps : List Nat
  deriving DecidableEq, Repr

/-- The struct `memcache.Item`, with the two fields the program sets; `B`
is the type of serialized payloads. -/
structure Item (B : Type) where
  Key : String
  Value : B
  deriving DecidableEq, Repr

/-- The message `ua` that `InsertAppsInstalled` builds from the record
(main.go, lines 57-61). -/
def userApps {F : Type} (appsInstalled : AppsInstalled F) : UserApps F :=
  { Lon := appsInstalled.lat,
    Lat := appsInstalled.lon,
    Apps := appsInstalled.apps }

/-- The key `fmt.Sprintf("%s:%s", devType, devId)`. -/
def cacheKey {F : Type} (appsInstalled : AppsInstalled F) : String :=
  appsInstalled.devType ++ ":" ++ appsInstalled.devId

/-- The loop `for attempt := 0; attempt < MemcMaxAttempts; attempt++` of
`InsertAppsInstalled`, by the number of attempts left.  `set client item st`
is `client.Set(&item)` on backend state `st`: whether it returned no error,
and the state after it.  The result is the returned boolean, the backend
state, and the store requests issued, in order. -/
def setAttempts {C B σ : Type} (set : C → Item B → σ → Bool × σ) (client : C) (item : Item B) :
    Nat → σ → Bool × σ × List (C × Item B)
  | 0, st => (false, st, [])
  | left + 1, st =>
    match set client item st with
    | (true, st1) => (true, st1, [(client, item)])
    | (false, st1) =>
      let r := setAttempts set client item left st1
      (r.1, r.2.1, (client, item) :: r.2.2)

/-- The method `InsertAppsInstalled`.  `Marshal` is `proto.Marshal`
(`none` when it returns an error), `clients` the map from device type to
client; the result is the returned boolean, the backend state, and the
store requests issued. -/
def InsertAppsInstalled {F C B σ : Type} (Marshal : UserApps F → Option B)
    (set : C → Item B → σ → Bool × σ) (clients : List (String × C))
    (appsInstalled : AppsInstalled F) (st : σ) : Bool × σ × List (C × Item B) :=
  let ua := userApps appsInstalled
  let key := cacheKey appsInstalled
  match Marshal ua with
  | none => (false, st, [])
  | some message =>
    match clients.lookup appsInstalled.devType with
    | none => (false, st, [])
    | some client =>
      let item : Item B := { Key := key, Value := message }
      setAttempts set client item MemcMaxAttempts st

/-- The backend state after `k` consecutive `Set` calls with one client and
item. -/
def stateAfter {C B σ : Type} (set : C → Item B → σ → Bool × σ) (client : C) (item : Item B) :
    Nat → σ → σ
  | 0, st => st
  | k + 1, st => stateAfter set client item k (set client item st).2

/-- The response of the backend to the `k`-th (from 0) of consecutive `Set`
calls with one client and item: `true` when the call returns no error. -/
def response {C B σ : Type} (set : C → Item B → σ → Bool × σ) (client : C) (item : Item B)
    (st : σ) (k : Nat) : Bool :=
  (set client item (stateAfter set client item k st)).1

/-- The clients map that `main` builds (lines 195-199), a client being
named by its address. -/
def mainClients : List (String × String) :=
  [("idfa", "127.0.0.1:33013"), ("gaid", "127.0.0.1:33014"),
   ("adid", "127.0.0.1:33015"), ("dvid", "127.0.0.1:33016")]

/-- A backend for the examples: its state is the number of calls made, and
the call numbered `k` succeeds when `ok k`. -/
def scriptedSet (ok : Nat → Bool) (_client : String) (_item : Item (UserApps ℚ)) (calls : Nat) :
    Bool × Nat :=
  (ok calls, calls + 1)

/-! ## File discovery in `main` (main.go, lines 201-218) -/

/-- The function `filepath.Split` on a Unix path: the file part is what
follows the final `/`, the directory part is the rest. -/
def pathSplit (path : String) : String × String :=
  let file := (path.data.reverse.takeWhile (fun c => c ≠ '/')).reverse
  (String.mk (path.data.take (path.data.length - file.length)), String.mk file)

/-- The function `strings.HasPrefix`. -/
def HasPrefix (s pre : String) : Bool := pre.data.isPrefixOf s.data

/-- One iteration of `for _, f := range files` in `main`, at index `i`, on
the slice contents and the counter `n`: `f` is read from the slice as it is
now, and written back at index `n` when its file name has no leading dot. -/
def compactStep (st : List String × Nat) (i : Nat) : List String × Nat :=
  let f := st.1.getD i ""
  let fn := (pathSplit f).2
  if !HasPrefix fn "." then (st.1.set st.2 f, st.2 + 1) else st

/-- The call `sort.Strings`: ascending order of Go strings, which compares
them byte by byte (the order of the code point sequences, for UTF-8). -/
def sortStrings (files : List String) : List String :=
  files.insertionSort (fun a b => a.data ≤ b.data)

/-- The files `main` submits, from the list `filepath.Glob` returned: the
compaction loop over all indices, `files = files[:n]`, `sort.Strings`. -/
def discover (globbed : List String) : List String :=
  let st := (List.range globbed.length).foldl compactStep (globbed, 0)
  sortStrings (st.1.take st.2)

/-! ## Workers and coordinator (main.go, lines 48-53, 173-179, 220-235)

The goroutines of `main` and the unbuffered channels between them, as a
transition system: a state holds where `main` and each worker stand, an
action is one step the scheduler lets happen.  A send and the matching
receive on an unbuffered channel are one step.  -/

/-- The struct `Queue`, without the clients map, which all tasks share and
nobody writes. -/
structure Queue where
  File : String
  Index : Nat
  deriving DecidableEq, Repr

/-- How a call of `ProcessFile` ends: through the last line (`completed`),
through the `return` of the high-error-rate branch (`aborted`), or in
`log.Fatal`, which exits the process (`fatal`). -/
inductive Outcome where
  | completed
  | aborted
  | fatal
  deriving DecidableEq, Repr

/-- Where a goroutine running `Worker` stands. -/
inductive WorkerState where
  /-- At `for q := range queue`, waiting for a task or for the close. -/
  | receiving
  /-- It received `q` and is in `ProcessFile(q.Clients, q.File)`. -/
  | processing (q : Queue)
  /-- At `results[q.Index] <- q.File`, waiting for the receiver. -/
  | sending (q : Queue)
  /-- The range loop ended and `Worker` returned. -/
  | returned
  deriving DecidableEq, Repr

/-- Where `main` stands, from line 227 on. -/
inductive MainState where
  /-- At the head of the submission loop with counter `i`. -/
  | spawning (i : Nat)
  /-- At `tasks <- Queue{clients, files[i], i}`, the worker of this
  iteration started. -/
  | submitting (i : Nat)
  /-- After `close(tasks)`, at the head of the last loop with counter `i`. -/
  | collecting (i : Nat)
  /-- Past the last loop. -/
  | done
  /-- The process was ended by `log.Fatal`. -/
  | exited
  deriving DecidableEq, Repr

/-- A state of the run: `renamed` lists the arguments of the `DotRename`
calls made so far, `processed` the `ProcessFile` calls that returned, each
with the branch it returned through. -/
structure State where
  main : MainState
  workers : List WorkerState
  renamed : List String
  processed : List (String × Outcome)
  deriving DecidableEq, Repr

/-- The state when `main` reaches line 227. -/
def State.init : State :=
  { main := .spawning 0, workers := [], renamed := [], processed := [] }

/-- The steps of the run. -/
inductive Action where
  /-- A step of `main` alone: `go Worker(tasks, results)`, or leaving the
  submission loop and `close(tasks)`, or leaving the last loop. -/
  | coordinator
  /-- Worker `w` receives the task `main` is sending on `tasks`. -/
  | handoff (w : Nat)
  /-- Worker `w` runs `ProcessFile` to its end. -/
  | process (w : Nat)
  /-- On `results[i]`, `main` receives the path worker `w` is sending, and
  calls `DotRename` on it. -/
  | deliver (w : Nat)
  /-- Worker `w` finds `tasks` closed and returns. -/
  | finish (w : Nat)
  deriving DecidableEq, Repr

/-- One step of the run on the submitted `files`; `outcome q` is how the
call of `ProcessFile` for task `q` ends.  `none` when the action is not
enabled. -/
def step (files : List String) (outcome : Queue → Outcome) (s : State) : Action → Option State
  | .coordinator =>
    match s.main with
    | .spawning i =>
      if i < files.length then
        some { s with main := .submitting i, workers := s.workers ++ [.receiving] }
      else some { s with main := .collecting 0 }
    | .collecting i =>
      if i < files.length then none else some { s with main := .done }
    | _ => none
  | .handoff w =>
    match s.main, s.workers[w]? with
    | .submitting i, some .receiving =>
      match files[i]? with
      | some f =>
        some { s with main := .spawning (i + 1),
                      workers := s.workers.set w (.processing { File := f, Index := i }) }
      | none => none
    | _, _ => none
  | .process w =>
    if s.main = .done ∨ s.main = .exited then none
    else
      match s.workers[w]? with
      | some (.processing q) =>
        match outcome q with
        | .fatal => some { s with main := .exited }
        | o =>
          some { s with workers := s.workers.set w (.sending q),
                        processed := s.processed ++ [(q.File, o)] }
      | _ => none
  | .deliver w =>
    match s.main, s.workers[w]? with
    | .collecting i, some (.sending q) =>
      if i < files.length ∧ q.Index = i then
        some { s with main := .collecting (i + 1),
                      workers := s.workers.set w .receiving,
                      renamed := s.renamed ++ [q.File] }
      else none
    | _, _ => none
  | .finish w =>
    match s.main, s.workers[w]? with
    | .collecting _, some .receiving => some { s with workers := s.workers.set w .returned }
    | _, _ => none

/-- The state a schedule leads to from `s`, when each of its actions is
enabled in turn. -/
def run (files : List String) (outcome : Queue → Outcome) : List Action → State → Option State
  | [], s => some s
  | a :: rest, s =>
    match step files outcome s a with
    | some s1 => run files outcome rest s1
    | none => none

/-- What holds in every state of every run: a worker that holds a task
holds the path submitted under the task's index, and the `DotRename` calls
made so far are the first files, in submission order, as many as the
counter of the last loop says. -/
def Inv (files : List String) (s : State) : Prop :=
  (∀ (w : Nat) (q : Queue),
    s.workers[w]? = some (.processing q) ∨ s.workers[w]? = some (.sending q) →
    files[q.Index]? = some q.File) ∧
  (match s.main with
   | .spawning _ => s.renamed = []
   | .submitting _ => s.renamed = []
   | .collecting i => i ≤ files.length ∧ s.renamed = files.take i
   | .done => s.renamed = files
   | .exited => ∃ k, s.renamed = files.take k)

/-- Some worker holds the task with index `j`: it is in `ProcessFile` for
it or is sending its path. -/
def holds (ws : List WorkerState) (j : Nat) : Prop :=
  ∃ (w : Nat) (q : Queue),
    (ws[w]? = some (.processing q) ∨ ws[w]? = some (.sending q)) ∧ q.Index = j

/-- What keeps every run going: while `main` submits, the tasks submitted
so far are held by workers and a send finds a waiting worker; while `main`
collects, the tasks not yet collected are held by workers. -/
def Live (files : List String) (s : State) : Prop :=
  match s.main with
  | .spawning i => i ≤ files.length ∧ ∀ j, j < i → holds s.workers j
  | .submitting i =>
    i < files.length ∧ (∃ w : Nat, s.workers[w]? = some WorkerState.receiving) ∧
      ∀ j, j < i → holds s.workers j
  | .collecting i => ∀ j, i ≤ j → j < files.length → holds s.workers j
  | .done => True
  | .exited => True

/-- The steps a worker in this state can still take before it next waits
for a task, counted from the end of its loop. -/
def workerRank : WorkerState → Nat
  | .returned => 0
  | .receiving => 1
  | .sending _ => 2
  | .processing _ => 3

/-- A bound on the steps left to `main` and to the workers it has yet to
start or serve, with `n` files. -/
def mainRank (n : Nat) : MainState → Nat
  | .spawning i => n + 3 + 6 * (n - i)
  | .submitting i => n + 1 + 6 * (n - i)
  | .collecting i => 1 + (n - i)
  | .done => 0
  | .exited => 0

/-- A measure that every step of a run decreases. -/
def rank (files : List String) (s : State) : Nat :=
  mainRank files.length s.main + (s.workers.map workerRank).sum

/-- The process is ended early only by `log.Fatal`: when `main` stands at
`exited`, the `ProcessFile` call of some submitted task ended in
`log.Fatal`. -/
def FatalOnly (files : List String) (outcome : Queue → Outcome) (s : State) : Prop :=
  s.main = .exited → ∃ q : Queue, files[q.Index]? = some q.File ∧ outcome q = .fatal

/-! ## Processing one file (main.go, lines 23-27 and 125-171)

The counters `processed` and `failed` are float64 variables.  A float64 is
modelled by the rational it denotes, or an infinity, or NaN (the sign of
zero is not kept); an operation is the exact operation followed by IEEE
754 rounding to nearest, ties to even, at 53 bits of precision. -/

/-- A float64 value. -/
inductive Float64 where
  | finite (q : ℚ)
  | posInf
  | negInf
  | nan
  deriving DecidableEq

/-- Rounding a rational to the nearest integer, a tie to the even one. -/
def roundHalfEven (q : ℚ) : ℤ :=
  if q - ⌊q⌋ < 1 / 2 then ⌊q⌋
  else if 1 / 2 < q - ⌊q⌋ then ⌊q⌋ + 1
  else if ⌊q⌋ % 2 = 0 then ⌊q⌋ else ⌊q⌋ + 1

/-- Rounding a rational to float64: with `2^e <= |x| < 2^(e+1)` (and `e`
at least -1022, below which the values are subnormal) the result is the
multiple of `2^(e-52)` nearest to `x`, a tie going to the even multiple; a
result of magnitude `2^1024` or more is an infinity. -/
def round64 (x : ℚ) : Float64 :=
  if x = 0 then .finite 0
  else
    let e : ℤ := max (Int.log 2 |x|) (-1022)
    let ulp : ℚ := 2 ^ (e - 52)
    let y : ℚ := roundHalfEven (x / ulp) * ulp
    if 2 ^ 1024 ≤ |y| then (if 0 < x then .posInf else .negInf) else .finite y

/-- The constant `NormalErrorRate = 0.01`, an untyped constant: the exact
decimal, rounded to float64 where it is used. -/
def NormalErrorRate : ℚ := 1 / 100

/-- Addition of float64 values. -/
def f64add : Float64 → Float64 → Float64
  | .finite a, .finite b => round64 (a + b)
  | .nan, _ => .nan
  | _, .nan => .nan
  | .posInf, .negInf => .nan
  | .negInf, .posInf => .nan
  | .posInf, _ => .posInf
  | _, .posInf => .posInf
  | .negInf, _ => .negInf
  | _, .negInf => .negInf

/-- Division of float64 values; a zero divisor is taken as `+0`, which is
what the counter `processed` holds before the first line. -/
def f64div : Float64 → Float64 → Float64
  | .finite a, .finite b =>
    if b = 0 then (if a = 0 then .nan else if 0 < a then .posInf else .negInf)
    else round64 (a / b)
  | .nan, _ => .nan
  | _, .nan => .nan
  | .finite _, _ => .finite 0
  | .posInf, .finite b => if 0 ≤ b then .posInf else .negInf
  | .negInf, .finite b => if 0 ≤ b then .negInf else .posInf
  | _, _ => .nan

/-- The comparison `a > b` of float64 values, false when either is NaN. -/
def f64gt : Float64 → Float64 → Bool
  | .finite a, .finite b => decide (b < a)
  | .nan, _ => false
  | _, .nan => false
  | .posInf, .posInf => false
  | .posInf, _ => true
  | .negInf, _ => false
  | .finite _, .posInf => false
  | .finite _, .negInf => true

/-- The loop `for scanner.Scan()` of `ProcessFile` over the lines still to
read: `processed++`, then the parser, and `failed++` when the parser
returns an error or `InsertAppsInstalled` returns false.  The result is the
two counters and the backend state. -/
def scanLines {F C B σ : Type} [Zero F] (ParseFloat : String → Option F)
    (Marshal : UserApps F → Option B) (set : C → Item B → σ → Bool × σ)
    (clients : List (String × C)) :
    List String → Float64 → Float64 → σ → Float64 × Float64 × σ
  | [], processed, failed, st => (processed, failed, st)
  | line :: rest, processed, failed, st =>
    let processed := f64add processed (.finite 1)
    match ParseAppsinstalled ParseFloat line with
    | (_, some _) =>
      scanLines ParseFloat Marshal set clients rest processed (f64add failed (.finite 1)) st
    | (parseResult, none) =>
      let r := InsertAppsInstalled Marshal set clients parseResult st
      if r.1 then scanLines ParseFloat Marshal set clients rest processed failed r.2.1
      else
        scanLines ParseFloat Marshal set clients rest processed (f64add failed (.finite 1)) r.2.1

/-- The test `processed > 0 && errorRate > NormalErrorRate` of
`ProcessFile`, with `errorRate := failed / processed`. -/
def highErrorRate (processed failed : Float64) : Bool :=
  let errorRate := f64div failed processed
  f64gt processed (.finite 0) && f64gt errorRate (round64 NormalErrorRate)

/-- The function `ProcessFile` on a file that opened, given as its lines:
the branch it ends in, the two counters, and the backend state. -/
def ProcessFile {F C B σ : Type} [Zero F] (ParseFloat : String → Option F)
    (Marshal : UserApps F → Option B) (set : C → Item B → σ → Bool × σ)
    (clients : List (String × C)) (lines : List String) (st : σ) :
    Outcome × Float64 × Float64 × σ :=
  let r := scanLines ParseFloat Marshal set clients lines (.finite 0) (.finite 0) st
  if highErrorRate r.1 r.2.1 then (.aborted, r) else (.completed, r)

/-- The number of lines that count as failed: those on which the parser
returns an error or `InsertAppsInstalled` returns false. -/
def failedLines {F C B σ : Type} [Zero F] (ParseFloat : String → Option F)
    (Marshal : UserApps F → Option B) (set : C → Item B → σ → Bool × σ)
    (clients : List (String × C)) : List String → σ → Nat
  | [], _ => 0
  | line :: rest, st =>
    match ParseAppsinstalled ParseFloat line with
    | (_, some _) => failedLines ParseFloat Marshal set clients rest st + 1
    | (parseResult, none) =>
      let r := InsertAppsInstalled Marshal set clients parseResult st
      if r.1 then failedLines ParseFloat Marshal set clients rest r.2.1
      else failedLines ParseFloat Marshal set clients rest r.2.1 + 1

end Memcload

/-! # Theorems -/

namespace Memcload

/-! ## The parser -/

theorem decimalFrom_cons (n : Nat) (c : Char) (cs : List Char) :
    decimalFrom n (c :: cs) = decimalFrom (10 * n + (c.toNat - 48)) cs := by
  simp [decimalFrom]

theorem le_decimalFrom (cs : List Char) (n : Nat) : n ≤ decimalFrom n cs := by
  induction cs generalizing n with
  | nil => simp [decimalFrom]
  | cons c cs ih =>
    rw [decimalFrom_cons]
    exact le_trans (by omega) (ih _)

/-- On an accumulator that fits 32 bits the digit loop of `ParseUint`
succeeds exactly on digit sequences whose value fits 32 bits, and then
returns that value. -/
theorem parseUintLoop_eq (cs : List Char) (n : Nat) (hn : n ≤ 4294967295) :
    (cs.all isDigit = true ∧ decimalFrom n cs ≤ 4294967295 →
      parseUintLoop 10 ((2 ^ 64 - 1) / 10 + 1) (2 ^ 32 - 1) cs n = (decimalFrom n cs, none)) ∧
    (¬ (cs.all isDigit = true ∧ decimalFrom n cs ≤ 4294967295) →
      (parseUintLoop 10 ((2 ^ 64 - 1) / 10 + 1) (2 ^ 32 - 1) cs n).2 ≠ none) := by
  induction cs generalizing n with
  | nil => simp [parseUintLoop, decimalFrom, hn]
  | cons c cs ih =>
    have hmono := le_decimalFrom cs (10 * n + (c.toNat - 48))
    rw [decimalFrom_cons]
    simp only [parseUintLoop, List.all_cons, isDigit, Bool.and_eq_true, decide_eq_true_eq]
    by_cases hd : 48 ≤ c.toNat ∧ c.toNat ≤ 57
    · have h10 : ¬ (c.toNat - 48 ≥ 10) := by omega
      have hcut : ¬ (n ≥ (2 ^ 64 - 1) / 10 + 1) := by norm_num; omega
      have e1 : (n * 10) % 2 ^ 64 = 10 * n := by norm_num; omega
      have e2 : (10 * n + (c.toNat - 48)) % 2 ^ 64 = 10 * n + (c.toNat - 48) := by
        norm_num; omega
      simp only [hd, and_self, if_true, h10, hcut, if_false, e1, e2, true_and]
      by_cases hbig : 10 * n + (c.toNat - 48) > 2 ^ 32 - 1
      · have hbig2 : 10 * n + (c.toNat - 48) > 4294967295 := by norm_num at hbig; omega
        have : ¬ (decimalFrom (10 * n + (c.toNat - 48)) cs ≤ 4294967295) := by omega
        have hbig3 : 4294967295 < 10 * n + (c.toNat - 48) := hbig2
        simp [hbig, hbig3, this]
      · have hfit : 10 * n + (c.toNat - 48) ≤ 4294967295 := by norm_num at hbig; omega
        have hlt : ¬ (10 * n + (c.toNat - 48) < 10 * n) := by omega
        simp only [hlt, hbig, or_self, if_false]
        exact ih _ hfit
    · simp only [hd, if_false, false_and]
      by_cases hl : 97 ≤ lower c.toNat ∧ lower c.toNat ≤ 122
      · have h10 : lower c.toNat - 97 + 10 ≥ 10 := by omega
        simp [hl, h10]
      · simp [hl]

/-- `ParseUint` succeeds on a valid token, with its decimal value. -/
theorem ParseUint_valid (s : String) (h : validUint32 s = true) :
    ParseUint s = (decimalValue s, none) := by
  simp only [validUint32, Bool.and_eq_true, decide_eq_true_eq] at h
  obtain ⟨⟨hne, hall⟩, hval⟩ := h
  simp only [ParseUint, hne, if_false]
  exact (parseUintLoop_eq s.data 0 (by omega)).1 ⟨hall, hval⟩

/-- `ParseUint` returns an error on every other token. -/
theorem ParseUint_invalid (s : String) (h : validUint32 s = false) :
    (ParseUint s).2 ≠ none := by
  by_cases hne : s.data = []
  · simp [ParseUint, hne]
  · simp only [ParseUint, hne, if_false]
    apply (parseUintLoop_eq s.data 0 (by omega)).2
    intro hc
    simp [validUint32, hne, hc.1, decimalValue, hc.2] at h

/-- The append loop adds exactly the valid tokens, in order. -/
theorem appendApps_eq (toks : List String) (apps : List Nat) :
    appendApps apps toks = apps ++ toks.filterMap
      (fun tok => if validUint32 tok then some (decimalValue tok) else none) := by
  induction toks generalizing apps with
  | nil => simp [appendApps]
  | cons a rest ih =>
    cases hv : validUint32 a with
    | true =>
      have hval : decimalValue a ≤ 4294967295 := by
        simp only [validUint32, Bool.and_eq_true, decide_eq_true_eq] at hv
        exact hv.2
      have hlt : decimalValue a < 4294967296 := by omega
      simp [appendApps, ParseUint_valid a hv, ih, hv, hlt]
    | false =>
      have herr := ParseUint_invalid a hv
      rcases hp : ParseUint a with ⟨v, e⟩
      rw [hp] at herr
      cases e with
      | none => exact absurd rfl herr
      | some e => simp [appendApps, hp, ih, hv]

/-- C1: a line that splits on tab into exactly 5 fields whose 3rd and 4th
fields parse as floats is parsed successfully, into the record holding the
first two fields, the two parsed floats, and as apps exactly the
comma-separated tokens of field 5 that are valid base-10 unsigned 32-bit
integers (non-empty, digits only, at most 4294967295), as numbers, in their
original order. -/
theorem ParseAppsinstalled_apps {F : Type} [Zero F] (ParseFloat : String → Option F)
    (line p0 p1 p2 p3 p4 : String) (lat lon : F)
    (hsplit : Split line '\t' = [p0, p1, p2, p3, p4])
    (hlat : ParseFloat p2 = some lat) (hlon : ParseFloat p3 = some lon) :
    ParseAppsinstalled ParseFloat line =
      ({ devType := p0, devId := p1, lat := lat, lon := lon, apps := specApps p4 }, none) := by
  simp [ParseAppsinstalled, hsplit, hlat, hlon, appendApps_eq, specApps, AppsInstalled.zero]

theorem ParseAppsinstalled_apps_witness :
    ParseAppsinstalled decimalLiteral "idfa\tabc123\t55.55\t37.37\t42,43,bad,,4294967296,007,44" =
      ({ devType := "idfa", devId := "abc123", lat := mkRat 5555 100, lon := mkRat 3737 100,
         apps := [42, 43, 7, 44] }, none) ∧
    specApps "42,43,bad,,4294967296,007,44" = [42, 43, 7, 44] :=
  ⟨ParseAppsinstalled_apps decimalLiteral _ "idfa" "abc123" "55.55" "37.37"
      "42,43,bad,,4294967296,007,44" (mkRat 5555 100) (mkRat 3737 100)
      (by decide) (by decide) (by decide), by decide⟩

/-- C2: a line whose number of tab-separated fields is not 5 makes
`ParseAppsinstalled` fail with the malformed-line error, and the record it
returns with the error is the zero value: empty device type and id, zero
coordinates, no apps. -/
theorem ParseAppsinstalled_malformed {F : Type} [Zero F] (ParseFloat : String → Option F)
    (line : String) (hlen : (Split line '\t').length ≠ 5) :
    ParseAppsinstalled ParseFloat line =
      ({ devType := "", devId := "", lat := 0, lon := 0, apps := [] },
        some "invalid format line") := by
  unfold ParseAppsinstalled
  split
  · next heq => simp [heq] at hlen
  · rfl

theorem ParseAppsinstalled_malformed_witness :
    ParseAppsinstalled decimalLiteral "idfa\tabc123\t55.55\t37.37" =
      ({ devType := "", devId := "", lat := 0, lon := 0, apps := [] },
        some "invalid format line") ∧
    ParseAppsinstalled decimalLiteral "idfa\tabc123\t55.55\t37.37\t42\t43" =
      ({ devType := "", devId := "", lat := 0, lon := 0, apps := [] },
        some "invalid format line") :=
  ⟨ParseAppsinstalled_malformed decimalLiteral _ (by decide),
   ParseAppsinstalled_malformed decimalLiteral _ (by decide)⟩

/-- C10 as stated fails: the line of five fields whose first two are empty
is parsed successfully into a record with empty device type and id. -/
theorem ParseAppsinstalled_empty_identity :
    (ParseAppsinstalled decimalLiteral "\t\t0\t0\t1").2 = none ∧
    (ParseAppsinstalled decimalLiteral "\t\t0\t0\t1").1.devType = "" ∧
    (ParseAppsinstalled decimalLiteral "\t\t0\t0\t1").1.devId = "" := by
  decide

/-- C10, amended: on every line on which `ParseAppsinstalled` succeeds the
line has exactly five tab-separated fields and the record's device type and
device id are the first and the second of them (either may be empty). -/
theorem ParseAppsinstalled_identity {F : Type} [Zero F] (ParseFloat : String → Option F)
    (line : String) (hok : (ParseAppsinstalled ParseFloat line).2 = none) :
    (Split line '\t').length = 5 ∧
    (Split line '\t')[0]? = some (ParseAppsinstalled ParseFloat line).1.devType ∧
    (Split line '\t')[1]? = some (ParseAppsinstalled ParseFloat line).1.devId := by
  unfold ParseAppsinstalled at hok ⊢
  split at hok
  · next p0 p1 p2 p3 p4 heq =>
    simp only [heq]
    cases h2 : ParseFloat p2 with
    | none => simp [h2] at hok
    | some lat =>
      cases h3 : ParseFloat p3 with
      | none => simp [h2, h3] at hok
      | some lon => simp
  · simp at hok

theorem ParseAppsinstalled_identity_witness :
    (Split "idfa\tabc123\t55.55\t37.37\t42" '\t').length = 5 ∧
    (Split "idfa\tabc123\t55.55\t37.37\t42" '\t')[0]? =
      some (ParseAppsinstalled decimalLiteral "idfa\tabc123\t55.55\t37.37\t42").1.devType ∧
    (Split "idfa\tabc123\t55.55\t37.37\t42" '\t')[1]? =
      some (ParseAppsinstalled decimalLiteral "idfa\tabc123\t55.55\t37.37\t42").1.devId :=
  ParseAppsinstalled_identity decimalLiteral _ (by decide)

/-! ## Storing a record -/

/-- What the attempt loop does with `left` attempts: never more than `left`
requests, each the same client and item; `true` after a first successful
response, `false` after `left` failures. -/
theorem setAttempts_spec {C B σ : Type} (set : C → Item B → σ → Bool × σ) (client : C)
    (item : Item B) (left : Nat) (st : σ) :
    (setAttempts set client item left st).2.2.length ≤ left ∧
    (∀ req ∈ (setAttempts set client item left st).2.2, req = (client, item)) ∧
    ((setAttempts set client item left st).1 = true →
      ∃ j, j < left ∧ (setAttempts set client item left st).2.2.length = j + 1 ∧
        response set client item st j = true ∧
        ∀ k, k < j → response set client item st k = false) ∧
    ((setAttempts set client item left st).1 = false →
      (setAttempts set client item left st).2.2.length = left ∧
        ∀ k, k < left → response set client item st k = false) := by
  induction left generalizing st with
  | zero => simp [setAttempts]
  | succ left ih =>
    rcases hs : set client item st with ⟨ok, st1⟩
    have hst1 : st1 = (set client item st).2 := by rw [hs]
    have hshift : ∀ k, response set client item st (k + 1) = response set client item st1 k := by
      intro k; simp [response, stateAfter, hst1]
    have h0 : response set client item st 0 = ok := by simp [response, stateAfter, hs]
    cases ok with
    | true =>
      simp only [setAttempts, hs]
      refine ⟨by simp, by simp, fun _ => ⟨0, by omega, by simp, h0, by simp⟩, by simp⟩
    | false =>
      obtain ⟨ih1, ih2, ih3, ih4⟩ := ih st1
      simp only [setAttempts, hs, List.length_cons, List.mem_cons]
      refine ⟨by omega, ?_, ?_, ?_⟩
      · rintro req (h | h)
        · exact h
        · exact ih2 req h
      · intro hok
        obtain ⟨j, hj, hlen, hresp, hbefore⟩ := ih3 hok
        refine ⟨j + 1, by omega, by omega, by rw [hshift]; exact hresp, ?_⟩
        intro k hk
        cases k with
        | zero => exact h0
        | succ k => rw [hshift]; exact hbefore k (by omega)
      · intro hfail
        obtain ⟨hlen, hall⟩ := ih4 hfail
        refine ⟨by omega, ?_⟩
        intro k hk
        cases k with
        | zero => exact h0
        | succ k => rw [hshift]; exact hall k (by omega)

/-- C6: for a record whose device type has a client (and that serializes),
`InsertAppsInstalled` issues at most `MemcMaxAttempts = 3` store requests,
each to that client with the same key and payload; it returns `true` exactly
when one of the first three responses is a success, and then the last
request issued is the first that succeeded; when the three responses are
failures it issues exactly 3 requests and returns `false`. -/
theorem InsertAppsInstalled_attempts {F C B σ : Type} (Marshal : UserApps F → Option B)
    (set : C → Item B → σ → Bool × σ) (clients : List (String × C))
    (appsInstalled : AppsInstalled F) (st : σ) (client : C) (payload : B)
    (hclient : clients.lookup appsInstalled.devType = some client)
    (hmsg : Marshal (userApps appsInstalled) = some payload) :
    MemcMaxAttempts = 3 ∧
    (InsertAppsInstalled Marshal set clients appsInstalled st).2.2.length ≤ MemcMaxAttempts ∧
    (∀ req ∈ (InsertAppsInstalled Marshal set clients appsInstalled st).2.2,
      req = (client, { Key := cacheKey appsInstalled, Value := payload })) ∧
    ((InsertAppsInstalled Marshal set clients appsInstalled st).1 = true ↔
      ∃ k, k < MemcMaxAttempts ∧
        response set client { Key := cacheKey appsInstalled, Value := payload } st k = true) ∧
    ((InsertAppsInstalled Marshal set clients appsInstalled st).1 = true →
      ∃ j, (InsertAppsInstalled Marshal set clients appsInstalled st).2.2.length = j + 1 ∧
        response set client { Key := cacheKey appsInstalled, Value := payload } st j = true ∧
        ∀ k, k < j →
          response set client { Key := cacheKey appsInstalled, Value := payload } st k = false) ∧
    ((∀ k, k < MemcMaxAttempts →
        response set client { Key := cacheKey appsInstalled, Value := payload } st k = false) →
      (InsertAppsInstalled Marshal set clients appsInstalled st).2.2.length = 3 ∧
      (InsertAppsInstalled Marshal set clients appsInstalled st).1 = false) := by
  have hI : InsertAppsInstalled Marshal set clients appsInstalled st =
      setAttempts set client { Key := cacheKey appsInstalled, Value := payload }
        MemcMaxAttempts st := by
    simp [InsertAppsInstalled, hmsg, hclient]
  rw [hI]
  obtain ⟨h1, h2, h3, h4⟩ :=
    setAttempts_spec set client { Key := cacheKey appsInstalled, Value := payload }
      MemcMaxAttempts st
  refine ⟨rfl, h1, h2, ⟨?_, ?_⟩, ?_, ?_⟩
  · intro hok
    obtain ⟨j, hj, _, hresp, _⟩ := h3 hok
    exact ⟨j, hj, hresp⟩
  · rintro ⟨k, hk, hresp⟩
    cases hr : (setAttempts set client { Key := cacheKey appsInstalled, Value := payload }
        MemcMaxAttempts st).1 with
    | true => rfl
    | false =>
      have := (h4 hr).2 k hk
      rw [this] at hresp
      exact absurd hresp (by simp)
  · intro hok
    obtain ⟨j, _, hlen, hresp, hbefore⟩ := h3 hok
    exact ⟨j, hlen, hresp, hbefore⟩
  · intro hall
    cases hr : (setAttempts set client { Key := cacheKey appsInstalled, Value := payload }
        MemcMaxAttempts st).1 with
    | true =>
      obtain ⟨j, hj, _, hresp, _⟩ := h3 hr
      rw [hall j hj] at hresp
      exact absurd hresp (by simp)
    | false => exact ⟨(h4 hr).1, rfl⟩

theorem InsertAppsInstalled_attempts_witness :
    InsertAppsInstalled some (scriptedSet (fun k => decide (k = 1))) mainClients
        ⟨"gaid", "d1", 1, 2, [7]⟩ 0 =
      (true, 2,
        [("127.0.0.1:33014", { Key := "gaid:d1", Value := { Lat := 2, Lon := 1, Apps := [7] } }),
         ("127.0.0.1:33014", { Key := "gaid:d1", Value := { Lat := 2, Lon := 1, Apps := [7] } })]) ∧
    (InsertAppsInstalled some (scriptedSet (fun _ => false)) mainClients
        ⟨"gaid", "d1", 1, 2, [7]⟩ 0).2.2.length = 3 ∧
    (InsertAppsInstalled some (scriptedSet (fun _ => false)) mainClients
        ⟨"gaid", "d1", 1, 2, [7]⟩ 0).1 = false ∧
    (InsertAppsInstalled some (scriptedSet (fun k => decide (k = 1))) mainClients
        ⟨"gaid", "d1", 1, 2, [7]⟩ 0).2.2.length ≤ MemcMaxAttempts :=
  ⟨by decide,
   ((InsertAppsInstalled_attempts some (scriptedSet (fun _ => false)) mainClients
      ⟨"gaid", "d1", 1, 2, [7]⟩ 0 "127.0.0.1:33014" (userApps ⟨"gaid", "d1", 1, 2, [7]⟩)
      (by decide) rfl).2.2.2.2.2 (fun _ _ => rfl)).1,
   ((InsertAppsInstalled_attempts some (scriptedSet (fun _ => false)) mainClients
      ⟨"gaid", "d1", 1, 2, [7]⟩ 0 "127.0.0.1:33014" (userApps ⟨"gaid", "d1", 1, 2, [7]⟩)
      (by decide) rfl).2.2.2.2.2 (fun _ _ => rfl)).2,
   (InsertAppsInstalled_attempts some (scriptedSet (fun k => decide (k = 1))) mainClients
      ⟨"gaid", "d1", 1, 2, [7]⟩ 0 "127.0.0.1:33014" (userApps ⟨"gaid", "d1", 1, 2, [7]⟩)
      (by decide) rfl).2.1⟩

/-- C7: for a record whose device type has no entry in the clients map,
`InsertAppsInstalled` returns `false`, leaves the backend as it was and
issues no store request, whatever the serializer and the backend do. -/
theorem InsertAppsInstalled_unknown_device {F C B σ : Type} (Marshal : UserApps F → Option B)
    (set : C → Item B → σ → Bool × σ) (clients : List (String × C))
    (appsInstalled : AppsInstalled F) (st : σ)
    (hunknown : clients.lookup appsInstalled.devType = none) :
    InsertAppsInstalled Marshal set clients appsInstalled st = (false, st, []) := by
  unfold InsertAppsInstalled
  cases hm : Marshal (userApps appsInstalled) with
  | none => simp [hm]
  | some message => simp [hm, hunknown]

theorem InsertAppsInstalled_unknown_device_witness :
    InsertAppsInstalled some (scriptedSet (fun _ => true)) mainClients
      ⟨"ios", "d1", 1, 2, [7]⟩ 0 = (false, 0, []) :=
  InsertAppsInstalled_unknown_device some (scriptedSet (fun _ => true)) mainClients
    ⟨"ios", "d1", 1, 2, [7]⟩ 0 (by decide)

/-- C3 at its own example: the message built from any record carries the
record's `lon` as `Lat` and its `lat` as `Lon`; for the line
`idfa\tabc123\t55.55\t37.37\t42,43,bad,44` the one request issued has key
`idfa:abc123` and a message with `Lat = 37.37`, `Lon = 55.55` and apps
`[42, 43, 44]`. -/
theorem InsertAppsInstalled_example :
    (∀ (F : Type) (a : AppsInstalled F),
      (userApps a).Lat = a.lon ∧ (userApps a).Lon = a.lat ∧ (userApps a).Apps = a.apps) ∧
    (ParseAppsinstalled decimalLiteral "idfa\tabc123\t55.55\t37.37\t42,43,bad,44").1 =
      { devType := "idfa", devId := "abc123", lat := mkRat 5555 100, lon := mkRat 3737 100,
        apps := [42, 43, 44] } ∧
    InsertAppsInstalled some (scriptedSet (fun _ => true)) mainClients
      (ParseAppsinstalled decimalLiteral "idfa\tabc123\t55.55\t37.37\t42,43,bad,44").1 0 =
      (true, 1, [("127.0.0.1:33013",
        { Key := "idfa:abc123",
          Value := { Lat := mkRat 3737 100, Lon := mkRat 5555 100, Apps := [42, 43, 44] } })]) ∧
    mkRat 3737 100 ≠ mkRat 5555 100 :=
  ⟨fun _ _ => ⟨rfl, rfl, rfl⟩, by decide, by decide, by decide⟩

/-! ## File discovery -/

/-- The compaction loop after `i` iterations: the first `n` entries are the
kept paths among the first `i`, and the entries from `i` on are untouched. -/
theorem compact_invariant (g : List String) (i : Nat) (hi : i ≤ g.length) :
    ((List.range i).foldl compactStep (g, 0)).1.length = g.length ∧
    ((List.range i).foldl compactStep (g, 0)).2 ≤ i ∧
    ((List.range i).foldl compactStep (g, 0)).1.take ((List.range i).foldl compactStep (g, 0)).2 =
      (g.take i).filter (fun f => !HasPrefix (pathSplit f).2 ".") ∧
    ((List.range i).foldl compactStep (g, 0)).1.drop i = g.drop i := by
  induction i with
  | zero => simp
  | succ i ih =>
    obtain ⟨hlen, hn, htake, hdrop⟩ := ih (by omega)
    rw [List.range_succ, List.foldl_append]
    rcases hst : (List.range i).foldl compactStep (g, 0) with ⟨arr, n⟩
    rw [hst] at hlen hn htake hdrop
    simp only at hlen hn htake hdrop
    have hig : i < g.length := by omega
    have hia : i < arr.length := by omega
    have hread : arr.getD i "" = g[i] := by
      rw [List.getD_eq_getElem arr "" hia]
      have h1 : arr.drop i = arr[i] :: arr.drop (i + 1) := List.drop_eq_getElem_cons hia
      have h2 : g.drop i = g[i] :: g.drop (i + 1) := List.drop_eq_getElem_cons hig
      rw [h1, h2] at hdrop
      exact (List.cons.inj hdrop).1
    have hdrop1 : arr.drop (i + 1) = g.drop (i + 1) := by
      have h1 : arr.drop i = arr[i] :: arr.drop (i + 1) := List.drop_eq_getElem_cons hia
      have h2 : g.drop i = g[i] :: g.drop (i + 1) := List.drop_eq_getElem_cons hig
      rw [h1, h2] at hdrop
      exact (List.cons.inj hdrop).2
    have hgtake : g.take (i + 1) = g.take i ++ [g[i]] := by
      rw [List.take_succ, List.getElem?_eq_getElem hig]; rfl
    simp only [List.foldl_cons, List.foldl_nil, compactStep, hread]
    by_cases hk : (!HasPrefix (pathSplit g[i]).2 ".") = true
    · simp only [hk, if_true, List.length_set]
      refine ⟨hlen, by omega, ?_, ?_⟩
      · rw [hgtake, List.filter_append, ← htake]
        have hna : n < arr.length := by omega
        have hset : (arr.set n g[i]).take (n + 1) = arr.take n ++ [g[i]] := by
          rw [List.set_eq_take_append_cons_drop, if_pos hna]
          have hl : (List.take n arr).length = n := by simp; omega
          rw [List.take_append_eq_append_take, hl]
          simp
        rw [hset]
        simp [hk]
      · rw [List.drop_set_of_lt _ _ (by omega)]
        exact hdrop1
    · simp only [hk]
      refine ⟨hlen, Nat.le_succ_of_le hn, ?_, hdrop1⟩
      rw [hgtake, List.filter_append, ← htake]
      simp [hk]

/-- The compaction loop followed by `files = files[:n]` is the filter on
the file name, order and multiplicity kept. -/
theorem compact_eq_filter (g : List String) :
    ((List.range g.length).foldl compactStep (g, 0)).1.take
        ((List.range g.length).foldl compactStep (g, 0)).2 =
      g.filter (fun f => !HasPrefix (pathSplit f).2 ".") := by
  have h := (compact_invariant g g.length (le_refl _)).2.2.1
  rw [List.take_length] at h
  exact h

/-- Prefixing both sides with the same characters does not change their
order. -/
theorem append_lt_append_iff (d x y : List Char) : d ++ x < d ++ y ↔ x < y := by
  induction d with
  | nil => simp
  | cons c d ih =>
    rw [← ih]
    show List.Lex (· < ·) (c :: (d ++ x)) (c :: (d ++ y)) ↔ List.Lex (· < ·) (d ++ x) (d ++ y)
    exact List.Lex.cons_iff

theorem append_le_append_iff (d x y : List Char) : d ++ x ≤ d ++ y ↔ x ≤ y := by
  rw [← not_lt, ← not_lt, append_lt_append_iff]

/-- The two parts `filepath.Split` returns make up the path. -/
theorem pathSplit_append (path : String) :
    (pathSplit path).1.data ++ (pathSplit path).2.data = path.data := by
  have h := List.takeWhile_append_dropWhile (fun c => decide (c ≠ '/')) path.data.reverse
  have hl : path.data =
      (path.data.reverse.dropWhile (fun c => decide (c ≠ '/'))).reverse ++
        (path.data.reverse.takeWhile (fun c => decide (c ≠ '/'))).reverse := by
    rw [← List.reverse_append, h, List.reverse_reverse]
  have key : ∀ (l a b : List Char), l = a ++ b → l.take (l.length - b.length) ++ b = l := by
    intro l a b hab
    subst hab
    simp
  exact key _ _ _ hl

/-- C9: the list of files `main` submits is a rearrangement of exactly the
globbed paths whose file name does not start with a dot (each as often as
it occurred, none altered by the in-place compaction); it is in ascending
order of the paths as strings, which is the ascending order of the file
names when the paths have one directory part; it contains no path whose
file name starts with a dot, and every other globbed path. -/
theorem discover_spec (globbed : List String) :
    (discover globbed).Perm (globbed.filter (fun f => !HasPrefix (pathSplit f).2 ".")) ∧
    List.Sorted (fun a b : String => a.data ≤ b.data) (discover globbed) ∧
    (∀ dir : String, (∀ f ∈ globbed, (pathSplit f).1 = dir) →
      List.Sorted (fun a b : String => (pathSplit a).2.data ≤ (pathSplit b).2.data)
        (discover globbed)) ∧
    (∀ f ∈ discover globbed, HasPrefix (pathSplit f).2 "." = false) ∧
    (∀ f ∈ globbed, HasPrefix (pathSplit f).2 "." = false → f ∈ discover globbed) := by
  have hperm : (discover globbed).Perm
      (globbed.filter (fun f => !HasPrefix (pathSplit f).2 ".")) := by
    unfold discover sortStrings
    simp only
    rw [compact_eq_filter]
    exact List.perm_insertionSort _ _
  have hsorted : List.Sorted (fun a b : String => a.data ≤ b.data) (discover globbed) := by
    unfold discover sortStrings
    haveI : IsTotal String (fun a b : String => a.data ≤ b.data) :=
      ⟨fun a b => le_total a.data b.data⟩
    haveI : IsTrans String (fun a b : String => a.data ≤ b.data) :=
      ⟨fun a b c hab hbc => le_trans hab hbc⟩
    exact List.sorted_insertionSort _ _
  have hmem : ∀ f ∈ discover globbed, f ∈ globbed := fun f hf =>
    (List.mem_filter.1 ((hperm.mem_iff).1 hf)).1
  refine ⟨hperm, hsorted, ?_, ?_, ?_⟩
  · intro dir hdir
    refine List.Pairwise.imp_of_mem ?_ hsorted
    intro a b ha hb hab
    have ea := pathSplit_append a
    have eb := pathSplit_append b
    rw [hdir a (hmem a ha)] at ea
    rw [hdir b (hmem b hb)] at eb
    rw [← ea, ← eb] at hab
    exact (append_le_append_iff _ _ _).1 hab
  · intro f hf
    have := (hperm.mem_iff).1 hf
    simpa using (List.mem_filter.1 this).2
  · intro f hf hk
    exact (hperm.mem_iff).2 (List.mem_filter.2 ⟨hf, by simp [hk]⟩)

/-! ## Workers and coordinator -/

theorem Inv_init (files : List String) : Inv files State.init := by
  simp [Inv, State.init]

/-- Writing a worker state that holds no new task keeps the first part of
the invariant. -/
theorem workers_set_inv (files : List String) (ws : List WorkerState) (w : Nat)
    (x : WorkerState)
    (h : ∀ (v : Nat) (q : Queue), ws[v]? = some (.processing q) ∨ ws[v]? = some (.sending q) →
      files[q.Index]? = some q.File)
    (hx : ∀ q, x = .processing q ∨ x = .sending q → files[q.Index]? = some q.File) :
    ∀ (v : Nat) (q : Queue),
      (ws.set w x)[v]? = some (.processing q) ∨ (ws.set w x)[v]? = some (.sending q) →
      files[q.Index]? = some q.File := by
  intro v q hv
  rw [List.getElem?_set] at hv
  by_cases hwv : w = v
  · simp only [hwv, if_true] at hv
    by_cases hlt : v < ws.length
    · simp only [hlt, if_true, Option.some.injEq] at hv
      exact hx q hv
    · simp [hlt] at hv
  · simp only [hwv, if_false] at hv
    exact h v q hv

theorem step_inv (files : List String) (outcome : Queue → Outcome) (s s1 : State) (a : Action)
    (hinv : Inv files s) (hstep : step files outcome s a = some s1) : Inv files s1 := by
  obtain ⟨hw, hm⟩ := hinv
  cases a with
  | coordinator =>
    simp only [step] at hstep
    split at hstep
    · next i hmain =>
      rw [hmain] at hm
      split at hstep
      · cases hstep
        refine ⟨?_, by simpa using hm⟩
        intro v q hv
        apply hw v q
        by_cases hlt : v < s.workers.length
        · simpa [List.getElem?_append_left hlt] using hv
        · rw [List.getElem?_append_right (by omega)] at hv
          cases hk : v - s.workers.length with
          | zero => simp [hk] at hv
          | succ k => simp [hk] at hv
      · cases hstep
        exact ⟨hw, by simp [hm]⟩
    · next i hmain =>
      rw [hmain] at hm
      split at hstep
      · cases hstep
      · next hge =>
        cases hstep
        refine ⟨hw, ?_⟩
        have : i = files.length := by omega
        simp [hm.2, this]
    · cases hstep
  | handoff w =>
    simp only [step] at hstep
    split at hstep
    · next i hmain hwk =>
      split at hstep
      · next f hf =>
        cases hstep
        rw [hmain] at hm
        refine ⟨?_, by simpa using hm⟩
        apply workers_set_inv files s.workers w _ hw
        intro q hq
        rcases hq with hq | hq
        · cases hq; exact hf
        · cases hq
      · cases hstep
    · cases hstep
  | process w =>
    simp only [step] at hstep
    split at hstep
    · cases hstep
    · next hnot =>
      split at hstep
      · next q hwk =>
        split at hstep
        · cases hstep
          refine ⟨hw, ?_⟩
          show ∃ k, s.renamed = files.take k
          cases hmain : s.main with
          | spawning i => rw [hmain] at hm; exact ⟨0, by simpa using hm⟩
          | submitting i => rw [hmain] at hm; exact ⟨0, by simpa using hm⟩
          | collecting i => rw [hmain] at hm; exact ⟨i, hm.2⟩
          | done => rw [hmain] at hm; exact ⟨files.length, by simpa using hm⟩
          | exited => rw [hmain] at hm; exact hm
        · cases hstep
          refine ⟨?_, hm⟩
          apply workers_set_inv files s.workers w _ hw
          intro q1 hq
          rcases hq with hq | hq
          · cases hq
          · cases hq; exact hw w q (Or.inl hwk)
      · cases hstep
  | deliver w =>
    simp only [step] at hstep
    split at hstep
    · next i q hmain hwk =>
      split at hstep
      · next hcond =>
        cases hstep
        rw [hmain] at hm
        refine ⟨?_, ?_⟩
        · apply workers_set_inv files s.workers w _ hw
          intro q1 hq
          rcases hq with hq | hq <;> cases hq
        · have hfile := hw w q (Or.inr hwk)
          rw [hcond.2] at hfile
          refine ⟨hcond.1, ?_⟩
          show s.renamed ++ [q.File] = files.take (i + 1)
          rw [List.take_succ, hfile, hm.2]; rfl
      · cases hstep
    · cases hstep
  | finish w =>
    simp only [step] at hstep
    split at hstep
    · next i hmain hwk =>
      cases hstep
      refine ⟨?_, hm⟩
      apply workers_set_inv files s.workers w _ hw
      intro q1 hq
      rcases hq with hq | hq <;> cases hq
    · cases hstep

theorem run_inv (files : List String) (outcome : Queue → Outcome) (sched : List Action)
    (s s1 : State) (hinv : Inv files s) (hrun : run files outcome sched s = some s1) :
    Inv files s1 := by
  induction sched generalizing s with
  | nil => simp only [run, Option.some.injEq] at hrun; rw [← hrun]; exact hinv
  | cons a rest ih =>
    simp only [run] at hrun
    cases hs : step files outcome s a with
    | none => rw [hs] at hrun; cases hrun
    | some s2 => rw [hs] at hrun; exact ih s2 (step_inv files outcome s s2 a hinv hs) hrun

theorem Live_init (files : List String) : Live files State.init := by
  simp [Live, State.init]

/-- A lookup away from the written index is unchanged. -/
theorem getElem?_set_other (ws : List WorkerState) (w v : Nat) (x : WorkerState) (h : w ≠ v) :
    (ws.set w x)[v]? = ws[v]? := by
  rw [List.getElem?_set]; simp [h]

/-- A lookup at the written index gives what was written. -/
theorem getElem?_set_same (ws : List WorkerState) (w : Nat) (x y : WorkerState)
    (h : ws[w]? = some y) : (ws.set w x)[w]? = some x := by
  have hlt : w < ws.length := (List.getElem?_eq_some.1 h).1
  rw [List.getElem?_set]; simp [hlt]

theorem holds_append (ws l : List WorkerState) (j : Nat) (h : holds ws j) :
    holds (ws ++ l) j := by
  obtain ⟨w, q, hq, hj⟩ := h
  have hlt : w < ws.length := by
    rcases hq with hq | hq <;> exact (List.getElem?_eq_some.1 hq).1
  exact ⟨w, q, by rw [List.getElem?_append_left hlt]; exact hq, hj⟩

/-- Writing the state of a worker that does not hold task `j` leaves task
`j` held. -/
theorem holds_set_of_ne (ws : List WorkerState) (w : Nat) (x : WorkerState) (j : Nat)
    (h : holds ws j)
    (hw : ∀ q : Queue, ws[w]? = some (.processing q) ∨ ws[w]? = some (.sending q) →
      q.Index ≠ j) :
    holds (ws.set w x) j := by
  obtain ⟨v, q, hq, hj⟩ := h
  have hne : w ≠ v := by
    intro heq
    subst heq
    exact hw q hq hj
  exact ⟨v, q, by rw [getElem?_set_other ws w v x hne]; exact hq, hj⟩

theorem step_live (files : List String) (outcome : Queue → Outcome) (s s1 : State) (a : Action)
    (hlive : Live files s) (hstep : step files outcome s a = some s1) : Live files s1 := by
  cases a with
  | coordinator =>
    simp only [step] at hstep
    split at hstep
    · next i hmain =>
      simp only [Live, hmain] at hlive
      split at hstep
      · next hlt =>
        cases hstep
        refine ⟨hlt, ⟨s.workers.length, by simp⟩, fun j hj => holds_append _ _ _ (hlive.2 j hj)⟩
      · next hge =>
        cases hstep
        intro j _ hj
        exact hlive.2 j (by omega)
    · next i hmain =>
      split at hstep
      · cases hstep
      · cases hstep
        trivial
    · cases hstep
  | handoff w =>
    simp only [step] at hstep
    split at hstep
    · next i hmain hwk =>
      simp only [Live, hmain] at hlive
      split at hstep
      · next f hf =>
        cases hstep
        obtain ⟨hlt, _, hheld⟩ := hlive
        refine ⟨by omega, fun j hj => ?_⟩
        rcases Nat.lt_or_ge j i with hji | hji
        · apply holds_set_of_ne _ _ _ _ (hheld j hji)
          intro q hq
          rw [hwk] at hq
          rcases hq with hq | hq <;> cases hq
        · have hj : j = i := by omega
          exact ⟨w, { File := f, Index := i },
            Or.inl (getElem?_set_same _ _ _ _ hwk), hj.symm⟩
      · cases hstep
    · cases hstep
  | process w =>
    simp only [step] at hstep
    split at hstep
    · cases hstep
    · next hnot =>
      split at hstep
      · next q hwk =>
        split at hstep
        · cases hstep
          trivial
        · cases hstep
          have hkeep : ∀ j, holds s.workers j →
              holds (s.workers.set w (.sending q)) j := by
            intro j hj
            by_cases hqj : q.Index = j
            · exact ⟨w, q, Or.inr (getElem?_set_same _ _ _ _ hwk), hqj⟩
            · apply holds_set_of_ne _ _ _ _ hj
              intro q1 hq1
              rw [hwk] at hq1
              rcases hq1 with hq1 | hq1
              · cases hq1; exact hqj
              · cases hq1
          cases hmain : s.main with
          | spawning i =>
            simp only [Live, hmain] at hlive ⊢
            exact ⟨hlive.1, fun j hj => hkeep j (hlive.2 j hj)⟩
          | submitting i =>
            simp only [Live, hmain] at hlive ⊢
            obtain ⟨hlt, ⟨v, hv⟩, hheld⟩ := hlive
            refine ⟨hlt, ⟨v, ?_⟩, fun j hj => hkeep j (hheld j hj)⟩
            have hne : w ≠ v := by
              intro heq; subst heq; rw [hwk] at hv; cases hv
            rw [getElem?_set_other _ _ _ _ hne]; exact hv
          | collecting i =>
            simp only [Live, hmain] at hlive ⊢
            exact fun j h1 h2 => hkeep j (hlive j h1 h2)
          | done => simp [Live, hmain]
          | exited => simp [Live, hmain]
      · cases hstep
  | deliver w =>
    simp only [step] at hstep
    split at hstep
    · next i q hmain hwk =>
      simp only [Live, hmain] at hlive
      split at hstep
      · next hcond =>
        cases hstep
        intro j h1 h2
        apply holds_set_of_ne _ _ _ _ (hlive j (by omega) h2)
        intro q1 hq1
        rw [hwk] at hq1
        rcases hq1 with hq1 | hq1
        · cases hq1
        · cases hq1; omega
      · cases hstep
    · cases hstep
  | finish w =>
    simp only [step] at hstep
    split at hstep
    · next i hmain hwk =>
      simp only [Live, hmain] at hlive
      cases hstep
      simp only [Live, hmain]
      intro j h1 h2
      apply holds_set_of_ne _ _ _ _ (hlive j h1 h2)
      intro q1 hq1
      rw [hwk] at hq1
      rcases hq1 with hq1 | hq1 <;> cases hq1
    · cases hstep

theorem run_live (files : List String) (outcome : Queue → Outcome) (sched : List Action)
    (s s1 : State) (hlive : Live files s) (hrun : run files outcome sched s = some s1) :
    Live files s1 := by
  induction sched generalizing s with
  | nil => simp only [run, Option.some.injEq] at hrun; rw [← hrun]; exact hlive
  | cons a rest ih =>
    simp only [run] at hrun
    cases hs : step files outcome s a with
    | none => rw [hs] at hrun; cases hrun
    | some s2 => rw [hs] at hrun; exact ih s2 (step_live files outcome s s2 a hlive hs) hrun

/-- No deadlock: in a state where `Live` holds and `main` has neither
finished nor been ended by `log.Fatal`, some action is enabled. -/
theorem Live_progress (files : List String) (outcome : Queue → Outcome) (s : State)
    (hlive : Live files s) (hdone : s.main ≠ .done) (hexit : s.main ≠ .exited) :
    ∃ a s1, step files outcome s a = some s1 := by
  cases hmain : s.main with
  | spawning i =>
    refine ⟨.coordinator, ?_⟩
    simp only [step, hmain]
    split <;> exact ⟨_, rfl⟩
  | submitting i =>
    simp only [Live, hmain] at hlive
    obtain ⟨hlt, ⟨w, hw⟩, _⟩ := hlive
    refine ⟨.handoff w, ?_⟩
    simp only [step, hmain, hw, List.getElem?_eq_getElem hlt]
    exact ⟨_, rfl⟩
  | collecting i =>
    simp only [Live, hmain] at hlive
    rcases Nat.lt_or_ge i files.length with hlt | hge
    · obtain ⟨w, q, hq, hqi⟩ := hlive i (le_refl _) hlt
      rcases hq with hq | hq
      · refine ⟨.process w, ?_⟩
        simp only [step, hmain, hq]
        simp only [reduceCtorEq, or_self, if_false]
        split <;> exact ⟨_, rfl⟩
      · refine ⟨.deliver w, ?_⟩
        simp only [step, hmain, hq, hlt, hqi, and_self, if_true]
        exact ⟨_, rfl⟩
    · refine ⟨.coordinator, ?_⟩
      simp only [step, hmain, not_lt.mpr hge, if_false]
      exact ⟨_, rfl⟩
  | done => exact absurd hmain hdone
  | exited => exact absurd hmain hexit

/-- Writing a worker state changes the sum of the ranks by the difference
of the two ranks. -/
theorem rank_sum_set (ws : List WorkerState) (w : Nat) (x y : WorkerState)
    (h : ws[w]? = some y) :
    ((ws.set w x).map workerRank).sum + workerRank y =
      (ws.map workerRank).sum + workerRank x := by
  induction ws generalizing w with
  | nil => simp at h
  | cons z zs ih =>
    cases w with
    | zero =>
      simp only [List.getElem?_cons_zero, Option.some.injEq] at h
      subst h
      simp only [List.set_cons_zero, List.map_cons, List.sum_cons]
      omega
    | succ w =>
      simp only [List.getElem?_cons_succ] at h
      have := ih w h
      simp only [List.set_cons_succ, List.map_cons, List.sum_cons]
      omega

/-- Every step decreases the measure. -/
theorem step_rank (files : List String) (outcome : Queue → Outcome) (s s1 : State) (a : Action)
    (hstep : step files outcome s a = some s1) : rank files s1 < rank files s := by
  cases a with
  | coordinator =>
    simp only [step] at hstep
    split at hstep
    · next i hmain =>
      split at hstep
      · next hlt =>
        cases hstep
        simp only [rank, hmain, mainRank, List.map_append, List.sum_append, List.map_cons,
          List.map_nil, List.sum_cons, List.sum_nil, workerRank]
        omega
      · next hge =>
        cases hstep
        simp only [rank, hmain, mainRank]
        omega
    · next i hmain =>
      split at hstep
      · cases hstep
      · cases hstep
        simp only [rank, hmain, mainRank]
        omega
    · cases hstep
  | handoff w =>
    simp only [step] at hstep
    split at hstep
    · next i hmain hwk =>
      split at hstep
      · next f hf =>
        cases hstep
        have hlt : i < files.length := (List.getElem?_eq_some.1 hf).1
        have hsum := rank_sum_set s.workers w (.processing { File := f, Index := i }) _ hwk
        simp only [workerRank] at hsum
        simp only [rank, hmain, mainRank]
        omega
      · cases hstep
    · cases hstep
  | process w =>
    simp only [step] at hstep
    split at hstep
    · cases hstep
    · next hnot =>
      split at hstep
      · next q hwk =>
        split at hstep
        · cases hstep
          have hpos : 0 < mainRank files.length s.main := by
            cases hmain : s.main with
            | spawning i => simp only [mainRank]; omega
            | submitting i => simp only [mainRank]; omega
            | collecting i => simp only [mainRank]; omega
            | done => exact absurd (Or.inl hmain) hnot
            | exited => exact absurd (Or.inr hmain) hnot
          show mainRank files.length .exited + (s.workers.map workerRank).sum <
            mainRank files.length s.main + (s.workers.map workerRank).sum
          have h0 : mainRank files.length .exited = 0 := rfl
          rw [h0]
          omega
        · cases hstep
          have hsum := rank_sum_set s.workers w (.sending q) _ hwk
          simp only [workerRank] at hsum
          simp only [rank]
          omega
      · cases hstep
  | deliver w =>
    simp only [step] at hstep
    split at hstep
    · next i q hmain hwk =>
      split at hstep
      · next hcond =>
        cases hstep
        have hsum := rank_sum_set s.workers w .receiving _ hwk
        simp only [workerRank] at hsum
        simp only [rank, hmain, mainRank]
        omega
      · cases hstep
    · cases hstep
  | finish w =>
    simp only [step] at hstep
    split at hstep
    · next i hmain hwk =>
      cases hstep
      have hsum := rank_sum_set s.workers w .returned _ hwk
      simp only [workerRank] at hsum
      simp only [rank]
      omega
    · cases hstep

/-- A run is no longer than the measure of its first state. -/
theorem run_rank (files : List String) (outcome : Queue → Outcome) (sched : List Action)
    (s s1 : State) (hrun : run files outcome sched s = some s1) :
    rank files s1 + sched.length ≤ rank files s := by
  induction sched generalizing s with
  | nil => simp only [run, Option.some.injEq] at hrun; rw [← hrun]; simp
  | cons a rest ih =>
    simp only [run] at hrun
    cases hs : step files outcome s a with
    | none => rw [hs] at hrun; cases hrun
    | some s2 =>
      rw [hs] at hrun
      have h1 := ih s2 hrun
      have h2 := step_rank files outcome s s2 a hs
      simp only [List.length_cons]
      omega

/-- Once the process has been ended no action is enabled. -/
theorem step_of_exited (files : List String) (outcome : Queue → Outcome) (s : State)
    (a : Action) (hex : s.main = .exited) : step files outcome s a = none := by
  cases a <;> simp [step, hex]

/-- A step ends the process only when the `ProcessFile` call of a submitted
task ends in `log.Fatal`. -/
theorem step_exited (files : List String) (outcome : Queue → Outcome) (s s1 : State)
    (a : Action) (hinv : Inv files s) (hne : s.main ≠ .exited)
    (hstep : step files outcome s a = some s1) (hex : s1.main = .exited) :
    ∃ q : Queue, files[q.Index]? = some q.File ∧ outcome q = .fatal := by
  obtain ⟨hw, _⟩ := hinv
  cases a with
  | coordinator =>
    simp only [step] at hstep
    split at hstep
    · split at hstep <;> (cases hstep; cases hex)
    · split at hstep
      · cases hstep
      · cases hstep; cases hex
    · cases hstep
  | handoff w =>
    simp only [step] at hstep
    split at hstep
    · split at hstep
      · cases hstep; cases hex
      · cases hstep
    · cases hstep
  | process w =>
    simp only [step] at hstep
    split at hstep
    · cases hstep
    · split at hstep
      · next q hwk =>
        split at hstep
        · next hfatal => exact ⟨q, hw w q (Or.inl hwk), hfatal⟩
        · cases hstep
          exact absurd hex hne
      · cases hstep
  | deliver w =>
    simp only [step] at hstep
    split at hstep
    · split at hstep
      · cases hstep; cases hex
      · cases hstep
    · cases hstep
  | finish w =>
    simp only [step] at hstep
    split at hstep
    · cases hstep
      exact absurd hex hne
    · cases hstep

theorem run_fatalOnly (files : List String) (outcome : Queue → Outcome) (sched : List Action)
    (s s1 : State) (hinv : Inv files s) (hfo : FatalOnly files outcome s)
    (hrun : run files outcome sched s = some s1) : FatalOnly files outcome s1 := by
  induction sched generalizing s with
  | nil => simp only [run, Option.some.injEq] at hrun; rw [← hrun]; exact hfo
  | cons a rest ih =>
    simp only [run] at hrun
    cases hs : step files outcome s a with
    | none => rw [hs] at hrun; cases hrun
    | some s2 =>
      rw [hs] at hrun
      have hne : s.main ≠ .exited := by
        intro hex
        rw [step_of_exited files outcome s a hex] at hs
        cases hs
      exact ih s2 (step_inv files outcome s s2 a hinv hs)
        (fun hex => step_exited files outcome s s2 a hinv hne hs hex) hrun

/-- When no `ProcessFile` call of a submitted task ends in `log.Fatal`,
every state in which the invariants hold can be continued to the end of
`main`. -/
theorem run_completes (files : List String) (outcome : Queue → Outcome)
    (hnf : ∀ q : Queue, files[q.Index]? = some q.File → outcome q ≠ .fatal) (n : Nat) :
    ∀ s : State, rank files s ≤ n → Inv files s → Live files s → s.main ≠ .exited →
      ∃ rest s1, run files outcome rest s = some s1 ∧ s1.main = .done := by
  induction n with
  | zero =>
    intro s hr hinv hlive hne
    by_cases hd : s.main = .done
    · exact ⟨[], s, rfl, hd⟩
    · obtain ⟨a, s1, hs⟩ := Live_progress files outcome s hlive hd hne
      have := step_rank files outcome s s1 a hs
      omega
  | succ n ih =>
    intro s hr hinv hlive hne
    by_cases hd : s.main = .done
    · exact ⟨[], s, rfl, hd⟩
    · obtain ⟨a, s1, hs⟩ := Live_progress files outcome s hlive hd hne
      have hlt := step_rank files outcome s s1 a hs
      have hne1 : s1.main ≠ .exited := by
        intro hex
        obtain ⟨q, hq, hf⟩ := step_exited files outcome s s1 a hinv hne hs hex
        exact hnf q hq hf
      obtain ⟨rest, s2, hrun, hdone⟩ := ih s1 (by omega)
        (step_inv files outcome s s1 a hinv hs) (step_live files outcome s s1 a hlive hs) hne1
      exact ⟨a :: rest, s2, by simp only [run, hs]; exact hrun, hdone⟩

/-- C8: in every state of every run, under every schedule of the workers,
the `DotRename` calls made so far are of the first submitted files in
submission order: the `i`-th call is of the `i`-th file; a worker about to
send on `results[q.Index]` sends the path submitted under that index; when
`main` is past its last loop there have been as many calls as files.  The
run does get there: the process is ended early only when a `ProcessFile`
call ends in `log.Fatal`; short of that and of the end of `main` some step
is enabled; no run has more than `7 * N + 3` steps; and when no
`ProcessFile` call ends in `log.Fatal` the run continues from the state it
is in to the end of `main`, where `DotRename` has been called on the `N`
files, in submission order. -/
theorem renames_in_submission_order (files : List String) (outcome : Queue → Outcome)
    (sched : List Action) (s : State)
    (hrun : run files outcome sched State.init = some s) :
    s.renamed.length ≤ files.length ∧
    (∀ i, i < s.renamed.length → s.renamed[i]? = files[i]?) ∧
    (∀ (w : Nat) (q : Queue), s.workers[w]? = some (.sending q) →
      files[q.Index]? = some q.File) ∧
    (s.main = .done → s.renamed = files) ∧
    (s.main = .exited → ∃ q : Queue, files[q.Index]? = some q.File ∧ outcome q = .fatal) ∧
    (s.main ≠ .done → s.main ≠ .exited → ∃ a s1, step files outcome s a = some s1) ∧
    sched.length ≤ 7 * files.length + 3 ∧
    ((∀ q : Queue, files[q.Index]? = some q.File → outcome q ≠ .fatal) →
      ∃ rest s1, run files outcome rest s = some s1 ∧ s1.main = .done ∧
        s1.renamed = files) := by
  have hinv := run_inv files outcome sched State.init s (Inv_init files) hrun
  have hlive := run_live files outcome sched State.init s (Live_init files) hrun
  have hrank := run_rank files outcome sched State.init s hrun
  have hfo : FatalOnly files outcome s :=
    run_fatalOnly files outcome sched State.init s (Inv_init files)
      (fun hex => by simp [State.init] at hex) hrun
  obtain ⟨hw, hm⟩ := hinv
  have hprefix : ∃ k, s.renamed = files.take k := by
    cases hmain : s.main with
    | spawning i => rw [hmain] at hm; exact ⟨0, by simpa using hm⟩
    | submitting i => rw [hmain] at hm; exact ⟨0, by simpa using hm⟩
    | collecting i => rw [hmain] at hm; exact ⟨i, hm.2⟩
    | done => rw [hmain] at hm; exact ⟨files.length, by simpa using hm⟩
    | exited => rw [hmain] at hm; exact hm
  obtain ⟨k, hk⟩ := hprefix
  refine ⟨?_, ?_, fun w q h => hw w q (Or.inr h), ?_, hfo,
    Live_progress files outcome s hlive, ?_, ?_⟩
  · rw [hk, List.length_take]; omega
  · intro i hi
    rw [hk] at hi ⊢
    rw [List.length_take] at hi
    rw [List.getElem?_take_of_lt (by omega)]
  · intro hdone
    rw [hdone] at hm
    exact hm
  · have hinit : rank files State.init = 7 * files.length + 3 := by
      simp only [rank, State.init, mainRank, List.map_nil, List.sum_nil]
      omega
    omega
  · intro hnf
    have hne : s.main ≠ .exited := by
      intro hex
      obtain ⟨q, hq, hf⟩ := hfo hex
      exact hnf q hq hf
    obtain ⟨rest, s1, hrest, hdone⟩ :=
      run_completes files outcome hnf (rank files s) s (le_refl _) ⟨hw, hm⟩ hlive hne
    have hinv1 := run_inv files outcome rest s s1 ⟨hw, hm⟩ hrest
    refine ⟨rest, s1, hrest, hdone, ?_⟩
    have h2 := hinv1.2
    rw [hdone] at h2
    exact h2

/-- The run on three files in which the workers finish in the order `c`,
`b`, `a`: after the first two `DotRename` calls, which are on `a` and `b`,
the third worker is still waiting to send `c`; the run continues to the
end of `main`, where the calls have been on `a`, `b`, `c`.  In the run on
two files where `ProcessFile` ends in `log.Fatal` on `b`, the process is
ended before any `DotRename` call and nothing more happens. -/
theorem renames_in_submission_order_witness :
    run ["a", "b", "c"] (fun _ => .completed)
      [.coordinator, .handoff 0, .coordinator, .handoff 1, .coordinator, .handoff 2,
       .coordinator, .process 2, .process 1, .process 0, .deliver 0, .deliver 1]
      State.init =
      some { main := .collecting 2,
             workers := [.receiving, .receiving, .sending { File := "c", Index := 2 }],
             renamed := ["a", "b"],
             processed := [("c", .completed), ("b", .completed), ("a", .completed)] } ∧
    (∀ i, i < 2 → (["a", "b"] : List String)[i]? = (["a", "b", "c"] : List String)[i]?) ∧
    (∃ rest s1,
      run ["a", "b", "c"] (fun _ => .completed) rest
        { main := .collecting 2,
          workers := [.receiving, .receiving, .sending { File := "c", Index := 2 }],
          renamed := ["a", "b"],
          processed := [("c", .completed), ("b", .completed), ("a", .completed)] } = some s1 ∧
      s1.main = .done ∧ s1.renamed = ["a", "b", "c"]) ∧
    run ["a", "b"] (fun q => if q.Index = 1 then .fatal else .completed)
      [.coordinator, .handoff 0, .coordinator, .handoff 1, .process 0, .process 1]
      State.init =
      some { main := .exited,
             workers := [.sending { File := "a", Index := 0 },
                         .processing { File := "b", Index := 1 }],
             renamed := [], processed := [("a", .completed)] } ∧
    run ["a", "b"] (fun q => if q.Index = 1 then .fatal else .completed)
      [.coordinator, .handoff 0, .coordinator, .handoff 1, .process 0, .process 1,
       .coordinator]
      State.init = none :=
  ⟨by decide,
   (renames_in_submission_order ["a", "b", "c"] (fun _ => .completed)
      [.coordinator, .handoff 0, .coordinator, .handoff 1, .coordinator, .handoff 2,
       .coordinator, .process 2, .process 1, .process 0, .deliver 0, .deliver 1]
      { main := .collecting 2,
        workers := [.receiving, .receiving, .sending { File := "c", Index := 2 }],
        renamed := ["a", "b"],
        processed := [("c", .completed), ("b", .completed), ("a", .completed)] }
      (by decide)).2.1,
   (renames_in_submission_order ["a", "b", "c"] (fun _ => .completed)
      [.coordinator, .handoff 0, .coordinator, .handoff 1, .coordinator, .handoff 2,
       .coordinator, .process 2, .process 1, .process 0, .deliver 0, .deliver 1]
      { main := .collecting 2,
        workers := [.receiving, .receiving, .sending { File := "c", Index := 2 }],
        renamed := ["a", "b"],
        processed := [("c", .completed), ("b", .completed), ("a", .completed)] }
      (by decide)).2.2.2.2.2.2.2 (fun _ _ => by simp),
   by decide, by decide⟩

/-- C4 as stated fails: in the run on the one file `a.tsv.gz` whose
`ProcessFile` call ends in the high-error-rate branch, `DotRename` is called
on `a.tsv.gz`. -/
theorem aborted_file_is_renamed :
    run ["a.tsv.gz"] (fun _ => .aborted)
      [.coordinator, .handoff 0, .coordinator, .process 0, .deliver 0, .coordinator]
      State.init =
    some { main := .done, workers := [.receiving], renamed := ["a.tsv.gz"],
           processed := [("a.tsv.gz", .aborted)] } := by
  decide

/-- C4, amended: whatever branch each `ProcessFile` call ends in, when
`main` is past its last loop `DotRename` has been called on every submitted
file, once each and in order; in particular on every file whose processing
ended in the high-error-rate branch. -/
theorem every_file_renamed (files : List String) (outcome : Queue → Outcome)
    (sched : List Action) (s : State)
    (hrun : run files outcome sched State.init = some s) (hdone : s.main = .done) :
    s.renamed = files ∧
    ∀ (i : Nat) (f : String), files[i]? = some f →
      outcome { File := f, Index := i } = .aborted → f ∈ s.renamed := by
  obtain ⟨_, hm⟩ := run_inv files outcome sched State.init s (Inv_init files) hrun
  rw [hdone] at hm
  have h : s.renamed = files := hm
  refine ⟨h, fun i f hf _ => ?_⟩
  rw [h]
  obtain ⟨hlt, hget⟩ := List.getElem?_eq_some.1 hf
  rw [← hget]
  exact List.getElem_mem hlt

theorem every_file_renamed_witness :
    (["a", "b"] : List String) = ["a", "b"] ∧
    ∀ (i : Nat) (f : String), (["a", "b"] : List String)[i]? = some f →
      (fun q : Queue => if q.Index = 1 then Outcome.aborted else Outcome.completed)
        { File := f, Index := i } = .aborted →
      f ∈ (["a", "b"] : List String) :=
  every_file_renamed ["a", "b"]
    (fun q => if q.Index = 1 then Outcome.aborted else Outcome.completed)
    [.coordinator, .handoff 0, .coordinator, .handoff 1, .coordinator,
     .process 1, .process 0, .deliver 0, .deliver 1, .coordinator]
    { main := .done, workers := [.receiving, .receiving], renamed := ["a", "b"],
      processed := [("b", .aborted), ("a", .completed)] }
    (by decide) rfl

/-! ## Float64 rounding and the error-rate test -/

theorem roundHalfEven_ge_floor (q : ℚ) : ⌊q⌋ ≤ roundHalfEven q := by
  unfold roundHalfEven
  split_ifs <;> omega

theorem roundHalfEven_le_floor_succ (q : ℚ) : roundHalfEven q ≤ ⌊q⌋ + 1 := by
  unfold roundHalfEven
  split_ifs <;> omega

theorem roundHalfEven_intCast (n : ℤ) : roundHalfEven (n : ℚ) = n := by
  unfold roundHalfEven
  simp

theorem roundHalfEven_le_of_le (q : ℚ) (M : ℤ) (h : q ≤ M) : roundHalfEven q ≤ M := by
  have hfl : ⌊q⌋ ≤ M := by
    have h1 : ((⌊q⌋ : ℤ) : ℚ) ≤ M := le_trans (Int.floor_le q) h
    exact_mod_cast h1
  rcases lt_or_eq_of_le hfl with hlt | heq
  · have := roundHalfEven_le_floor_succ q
    omega
  · have hq : q = M := by
      apply le_antisymm h
      rw [← heq]
      exact Int.floor_le q
    rw [hq, roundHalfEven_intCast]

theorem roundHalfEven_ge_of_half (q : ℚ) (M : ℤ) (hodd : M % 2 = 1) (h : (M : ℚ) + 1 / 2 ≤ q) :
    M + 1 ≤ roundHalfEven q := by
  have hfl : M ≤ ⌊q⌋ := by
    rw [Int.le_floor]
    linarith
  rcases lt_or_eq_of_le hfl with hlt | heq
  · have := roundHalfEven_ge_floor q
    omega
  · unfold roundHalfEven
    rw [← heq]
    have h1 : ¬ (q - (M : ℚ) < 1 / 2) := by linarith
    simp only [h1, if_false]
    split_ifs with h2 h3
    · rfl
    · omega
    · rfl

theorem log_eq_of (x : ℚ) (e : ℤ) (hx : 0 < x) (h1 : (2 : ℚ) ^ e ≤ x) (h2 : x < (2 : ℚ) ^ (e + 1)) :
    Int.log 2 x = e := by
  apply le_antisymm
  · have := (Int.lt_zpow_iff_log_lt (b := 2) (by norm_num) hx (x := e + 1)).1 (by simpa using h2)
    omega
  · exact (Int.zpow_le_iff_le_log (b := 2) (by norm_num) hx).1 (by simpa using h1)


theorem round64_of_binade (x : ℚ) (e : ℤ) (he1 : -1022 ≤ e) (he2 : e ≤ 1022)
    (h1 : (2 : ℚ) ^ e ≤ x) (h2 : x < (2 : ℚ) ^ (e + 1)) :
    round64 x = .finite (roundHalfEven (x / 2 ^ (e - 52)) * 2 ^ (e - 52)) ∧
    (2 : ℤ) ^ 52 ≤ roundHalfEven (x / 2 ^ (e - 52)) ∧
    roundHalfEven (x / 2 ^ (e - 52)) ≤ (2 : ℤ) ^ 53 := by
  have hpos : (0 : ℚ) < 2 ^ e := zpow_pos (by norm_num) e
  have hx : 0 < x := lt_of_lt_of_le hpos h1
  have hlog : Int.log 2 x = e := log_eq_of x e hx h1 h2
  have hulp : (0 : ℚ) < 2 ^ (e - 52) := zpow_pos (by norm_num) _
  have hq1 : (2 : ℚ) ^ (52 : ℕ) ≤ x / 2 ^ (e - 52) := by
    rw [le_div_iff₀ hulp, ← zpow_natCast, ← zpow_add₀ (by norm_num)]
    simpa using h1
  have hq2 : x / 2 ^ (e - 52) < (2 : ℚ) ^ (53 : ℕ) := by
    rw [div_lt_iff₀ hulp, ← zpow_natCast, ← zpow_add₀ (by norm_num)]
    have : ((53 : ℕ) : ℤ) + (e - 52) = e + 1 := by push_cast; ring
    rw [this]; exact h2
  have hfl1 : (2 : ℤ) ^ 52 ≤ ⌊x / 2 ^ (e - 52)⌋ := by
    rw [Int.le_floor]; push_cast; exact hq1
  have hfl2 : ⌊x / 2 ^ (e - 52)⌋ < (2 : ℤ) ^ 53 := by
    rw [Int.floor_lt]; push_cast; exact hq2
  have hr1 := roundHalfEven_ge_floor (x / 2 ^ (e - 52))
  have hr2 := roundHalfEven_le_floor_succ (x / 2 ^ (e - 52))
  have hm1 : (2 : ℤ) ^ 52 ≤ roundHalfEven (x / 2 ^ (e - 52)) := le_trans hfl1 hr1
  have hm2 : roundHalfEven (x / 2 ^ (e - 52)) ≤ (2 : ℤ) ^ 53 := by omega
  refine ⟨?_, hm1, hm2⟩
  have hy0 : (0 : ℚ) ≤ (roundHalfEven (x / 2 ^ (e - 52)) : ℚ) * 2 ^ (e - 52) := by
    apply mul_nonneg _ hulp.le
    have : (0 : ℤ) ≤ roundHalfEven (x / 2 ^ (e - 52)) := le_trans (by norm_num) hm1
    exact_mod_cast this
  have hy1 : (roundHalfEven (x / 2 ^ (e - 52)) : ℚ) * 2 ^ (e - 52) < 2 ^ (1024 : ℕ) := by
    have hc : (roundHalfEven (x / 2 ^ (e - 52)) : ℚ) ≤ (2 : ℚ) ^ (53 : ℕ) := by exact_mod_cast hm2
    calc (roundHalfEven (x / 2 ^ (e - 52)) : ℚ) * 2 ^ (e - 52)
        ≤ (2 : ℚ) ^ (53 : ℕ) * 2 ^ (e - 52) := mul_le_mul_of_nonneg_right hc hulp.le
      _ = (2 : ℚ) ^ (e + 1) := by
          rw [← zpow_natCast, ← zpow_add₀ (by norm_num)]; congr 1; push_cast; ring
      _ ≤ (2 : ℚ) ^ ((1023 : ℕ) : ℤ) := zpow_le_zpow_right₀ (by norm_num) (by push_cast; omega)
      _ < 2 ^ (1024 : ℕ) := by rw [zpow_natCast]; norm_num
  unfold round64
  have hx0 : x ≠ 0 := ne_of_gt hx
  simp only [hx0, if_false, abs_of_pos hx, hlog, max_eq_left he1, abs_of_nonneg hy0,
    not_le.mpr hy1]


theorem round64_exact (x : ℚ) (e k : ℤ) (he1 : -1022 ≤ e) (he2 : e ≤ 1022)
    (h1 : (2 : ℚ) ^ e ≤ x) (h2 : x < (2 : ℚ) ^ (e + 1)) (hk : x / 2 ^ (e - 52) = (k : ℚ)) :
    round64 x = .finite x := by
  rw [(round64_of_binade x e he1 he2 h1 h2).1, hk, roundHalfEven_intCast, ← hk]
  have hulp : (2 : ℚ) ^ (e - 52) ≠ 0 := zpow_ne_zero _ (by norm_num)
  rw [div_mul_cancel₀ _ hulp]

theorem round64_natCast (n : ℕ) (hn : n ≤ 2 ^ 53) : round64 (n : ℚ) = .finite n := by
  rcases Nat.eq_zero_or_pos n with h0 | hpos
  · subst h0; simp [round64]
  · have hlo : 2 ^ Nat.log 2 n ≤ n := Nat.pow_log_le_self 2 (by omega)
    have hhi : n < 2 ^ (Nat.log 2 n + 1) := Nat.lt_pow_succ_log_self (by norm_num) n
    have he : Nat.log 2 n ≤ 53 := by
      have : 2 ^ Nat.log 2 n ≤ 2 ^ 53 := le_trans hlo hn
      exact (Nat.pow_le_pow_iff_right (by norm_num)).1 this
    have h1 : (2 : ℚ) ^ ((Nat.log 2 n : ℕ) : ℤ) ≤ (n : ℚ) := by
      rw [zpow_natCast]; exact_mod_cast hlo
    have h2 : (n : ℚ) < (2 : ℚ) ^ (((Nat.log 2 n : ℕ) : ℤ) + 1) := by
      have : (((Nat.log 2 n : ℕ) : ℤ) + 1) = ((Nat.log 2 n + 1 : ℕ) : ℤ) := by push_cast; ring
      rw [this, zpow_natCast]; exact_mod_cast hhi
    rcases Nat.lt_or_ge (Nat.log 2 n) 53 with hlt | hge
    · apply round64_exact (n : ℚ) (Nat.log 2 n) ((n * 2 ^ (52 - Nat.log 2 n) : ℕ) : ℤ)
        (by omega) (by omega) h1 h2
      have hsub : ((Nat.log 2 n : ℕ) : ℤ) - 52 = - ((52 - Nat.log 2 n : ℕ) : ℤ) := by omega
      rw [hsub, zpow_neg, div_inv_eq_mul, zpow_natCast]
      push_cast; ring
    · have he53 : Nat.log 2 n = 53 := by omega
      have hn53 : n = 2 ^ 53 := by rw [he53] at hlo; omega
      apply round64_exact (n : ℚ) (Nat.log 2 n) ((2 : ℤ) ^ 52) (by omega) (by omega) h1 h2
      rw [he53, hn53]
      norm_num

theorem round64_saturate : round64 (((2 ^ 53 : ℕ) : ℚ) + 1) = .finite ((2 ^ 53 : ℕ) : ℚ) := by
  have h := (round64_of_binade (((2 ^ 53 : ℕ) : ℚ) + 1) 53 (by norm_num) (by norm_num)
    (by norm_num) (by norm_num)).1
  rw [h]
  have hq : (((2 ^ 53 : ℕ) : ℚ) + 1) / 2 ^ ((53 : ℤ) - 52) = (2 : ℚ) ^ 52 + 1 / 2 := by
    norm_num
  have hfl : ⌊((2 : ℚ) ^ 52 + 1 / 2)⌋ = (2 : ℤ) ^ 52 := by
    rw [Int.floor_eq_iff]; constructor <;> norm_num
  have hr : roundHalfEven ((2 : ℚ) ^ 52 + 1 / 2) = (2 : ℤ) ^ 52 := by
    unfold roundHalfEven
    rw [hfl]
    norm_num
  rw [hq, hr]
  norm_num


theorem round64_threshold :
    round64 NormalErrorRate = .finite (5764607523034235 / 2 ^ 59) := by
  have h := (round64_of_binade (1 / 100) (-7) (by norm_num) (by norm_num)
    (by norm_num) (by norm_num)).1
  rw [NormalErrorRate, h]
  have hq : (1 / 100 : ℚ) / 2 ^ ((-7 : ℤ) - 52) = 5764607523034234 + 22 / 25 := by
    norm_num
  have hfl : ⌊(5764607523034234 + 22 / 25 : ℚ)⌋ = 5764607523034234 := by
    rw [Int.floor_eq_iff]; constructor <;> norm_num
  have hr : roundHalfEven (5764607523034234 + 22 / 25 : ℚ) = 5764607523034235 := by
    unfold roundHalfEven
    rw [hfl]
    norm_num
  rw [hq, hr]
  norm_num

theorem errorRate_gt (p f : ℕ) (hp : 0 < p) (hp2 : p ≤ 2 ^ 53) (hf : f ≤ p) :
    f64gt (f64div (.finite f) (.finite p)) (round64 NormalErrorRate) = true ↔ p < 100 * f := by
  have hpq : (0 : ℚ) < p := by exact_mod_cast hp
  have hp0 : (p : ℚ) ≠ 0 := ne_of_gt hpq
  rw [round64_threshold]
  simp only [f64div, hp0, if_false]
  rcases Nat.eq_zero_or_pos f with hf0 | hfpos
  · subst hf0
    simp [round64, f64gt]
    norm_num
  · have hfq : (0 : ℚ) < f := by exact_mod_cast hfpos
    have hx : (0 : ℚ) < (f : ℚ) / p := div_pos hfq hpq
    have hx1 : (f : ℚ) / p ≤ 1 := by
      rw [div_le_one hpq]; exact_mod_cast hf
    have hx2 : (2 : ℚ) ^ (-53 : ℤ) ≤ (f : ℚ) / p := by
      rw [le_div_iff₀ hpq]
      have h1 : (p : ℚ) ≤ 2 ^ 53 := by exact_mod_cast hp2
      have h2 : (1 : ℚ) ≤ f := by exact_mod_cast hfpos
      have h3 : (2 : ℚ) ^ (-53 : ℤ) * 2 ^ 53 = 1 := by norm_num
      have h4 : (0 : ℚ) < 2 ^ (-53 : ℤ) := by norm_num
      nlinarith
    have hlo : (2 : ℚ) ^ (Int.log 2 ((f : ℚ) / p)) ≤ (f : ℚ) / p := by
      simpa using Int.zpow_log_le_self (b := 2) (by norm_num) hx
    have hhi : (f : ℚ) / p < (2 : ℚ) ^ (Int.log 2 ((f : ℚ) / p) + 1) := by
      simpa using Int.lt_zpow_succ_log_self (b := 2) (by norm_num) ((f : ℚ) / p)
    have he1 : -53 ≤ Int.log 2 ((f : ℚ) / p) :=
      (Int.zpow_le_iff_le_log (b := 2) (by norm_num) hx).1 (by simpa using hx2)
    have he2 : Int.log 2 ((f : ℚ) / p) ≤ 0 := by
      have : Int.log 2 ((f : ℚ) / p) < 1 :=
        (Int.lt_zpow_iff_log_lt (b := 2) (by norm_num) hx).1 (by norm_num; linarith)
      omega
    obtain ⟨hr, hm1, hm2⟩ := round64_of_binade ((f : ℚ) / p) _ (by omega) (by omega) hlo hhi
    rw [hr]
    simp only [f64gt, decide_eq_true_eq]
    generalize Int.log 2 ((f : ℚ) / p) = e at *
    have hulp : (0 : ℚ) < 2 ^ (e - 52) := zpow_pos (by norm_num) _
    have hm1q : (2 : ℚ) ^ (52 : ℕ) ≤ (roundHalfEven ((f : ℚ) / p / 2 ^ (e - 52)) : ℚ) := by
      exact_mod_cast hm1
    have hm2q : (roundHalfEven ((f : ℚ) / p / 2 ^ (e - 52)) : ℚ) ≤ (2 : ℚ) ^ (53 : ℕ) := by
      exact_mod_cast hm2
    have hylo : (2 : ℚ) ^ e ≤ (roundHalfEven ((f : ℚ) / p / 2 ^ (e - 52)) : ℚ) * 2 ^ (e - 52) := by
      calc (2 : ℚ) ^ e = (2 : ℚ) ^ (52 : ℕ) * 2 ^ (e - 52) := by
            rw [← zpow_natCast, ← zpow_add₀ (by norm_num)]; congr 1; push_cast; ring
        _ ≤ _ := mul_le_mul_of_nonneg_right hm1q hulp.le
    have hyhi : (roundHalfEven ((f : ℚ) / p / 2 ^ (e - 52)) : ℚ) * 2 ^ (e - 52) ≤
        (2 : ℚ) ^ (e + 1) := by
      calc _ ≤ (2 : ℚ) ^ (53 : ℕ) * 2 ^ (e - 52) := mul_le_mul_of_nonneg_right hm2q hulp.le
        _ = (2 : ℚ) ^ (e + 1) := by
            rw [← zpow_natCast, ← zpow_add₀ (by norm_num)]; congr 1; push_cast; ring
    constructor
    · intro hgt
      by_contra hle
      have hle2 : 100 * f ≤ p := by omega
      have hxle : (f : ℚ) / p ≤ 1 / 100 := by
        rw [div_le_iff₀ hpq]
        have : (100 : ℚ) * f ≤ p := by exact_mod_cast hle2
        linarith
      have he : e ≤ -7 := by
        by_contra hcon
        have h6 : (2 : ℚ) ^ (-6 : ℤ) ≤ 2 ^ e := zpow_le_zpow_right₀ (by norm_num) (by omega)
        have h64 : (2 : ℚ) ^ (-6 : ℤ) = 1 / 64 := by norm_num
        rw [h64] at h6
        have : (1 : ℚ) / 64 ≤ 1 / 100 := le_trans h6 (le_trans hlo hxle)
        norm_num at this
      rcases lt_or_eq_of_le he with hlt | heq
      · have h7 : (2 : ℚ) ^ (e + 1) ≤ 2 ^ (-7 : ℤ) :=
          zpow_le_zpow_right₀ (by norm_num) (by omega)
        have h128 : (2 : ℚ) ^ (-7 : ℤ) = 1 / 128 := by norm_num
        rw [h128] at h7
        have hc : (1 / 128 : ℚ) ≤ 5764607523034235 / 2 ^ 59 := by norm_num
        exact absurd hgt (not_lt.mpr (le_trans hyhi (le_trans h7 hc)))
      · subst heq
        have hq : (f : ℚ) / p / 2 ^ ((-7 : ℤ) - 52) ≤ ((5764607523034235 : ℤ) : ℚ) := by
          have : (2 : ℚ) ^ ((-7 : ℤ) - 52) = 1 / 2 ^ 59 := by norm_num
          rw [this, div_div_eq_mul_div, div_one]
          have : (f : ℚ) / p * 2 ^ 59 ≤ 1 / 100 * 2 ^ 59 :=
            mul_le_mul_of_nonneg_right hxle (by norm_num)
          refine le_trans this ?_
          norm_num
        have hr := roundHalfEven_le_of_le _ _ hq
        have hrq : (roundHalfEven ((f : ℚ) / p / 2 ^ ((-7 : ℤ) - 52)) : ℚ) ≤ 5764607523034235 := by
          exact_mod_cast hr
        have : (2 : ℚ) ^ ((-7 : ℤ) - 52) = 1 / 2 ^ 59 := by norm_num
        rw [this] at hgt hrq
        have h59 : (0 : ℚ) < 1 / 2 ^ 59 := by norm_num
        have := mul_le_mul_of_nonneg_right hrq h59.le
        rw [← div_eq_mul_one_div] at this
        linarith
    · intro hlt
      have hxgt : (1 : ℚ) / 100 < (f : ℚ) / p := by
        rw [lt_div_iff₀ hpq]
        have : (p : ℚ) < 100 * f := by exact_mod_cast hlt
        linarith
      have he : -7 ≤ e := by
        by_contra hcon
        have h7 : (2 : ℚ) ^ (e + 1) ≤ 2 ^ (-7 : ℤ) :=
          zpow_le_zpow_right₀ (by norm_num) (by omega)
        have h128 : (2 : ℚ) ^ (-7 : ℤ) = 1 / 128 := by norm_num
        rw [h128] at h7
        have : (1 : ℚ) / 100 < 1 / 128 := lt_of_lt_of_le hxgt (le_trans hhi.le h7)
        norm_num at this
      rcases lt_or_eq_of_le he with hlt7 | heq
      · have h6 : (2 : ℚ) ^ (-6 : ℤ) ≤ 2 ^ e := zpow_le_zpow_right₀ (by norm_num) (by omega)
        have h64 : (2 : ℚ) ^ (-6 : ℤ) = 1 / 64 := by norm_num
        rw [h64] at h6
        have hc : (5764607523034235 : ℚ) / 2 ^ 59 < 1 / 64 := by norm_num
        exact lt_of_lt_of_le hc (le_trans h6 hylo)
      · subst heq
        have hnat : (2 * 5764607523034235 + 1) * p ≤ f * 2 ^ 60 := by
          norm_num at hp2 ⊢
          omega
        have hq : ((5764607523034235 : ℤ) : ℚ) + 1 / 2 ≤ (f : ℚ) / p / 2 ^ ((-7 : ℤ) - 52) := by
          have : (2 : ℚ) ^ ((-7 : ℤ) - 52) = 1 / 2 ^ 59 := by norm_num
          rw [this, div_div_eq_mul_div, div_one, div_mul_eq_mul_div, le_div_iff₀ hpq]
          have hc : ((2 * 5764607523034235 + 1) * p : ℚ) ≤ f * 2 ^ 60 := by exact_mod_cast hnat
          push_cast
          linarith
        have hr := roundHalfEven_ge_of_half _ 5764607523034235 (by norm_num) hq
        have hrq : ((5764607523034235 : ℚ) + 1) ≤
            (roundHalfEven ((f : ℚ) / p / 2 ^ ((-7 : ℤ) - 52)) : ℚ) := by
          exact_mod_cast hr
        have : (2 : ℚ) ^ ((-7 : ℤ) - 52) = 1 / 2 ^ 59 := by norm_num
        rw [this] at hrq ⊢
        have h59 : (0 : ℚ) < 1 / 2 ^ 59 := by norm_num
        have := mul_le_mul_of_nonneg_right hrq h59.le
        have hc : (5764607523034235 : ℚ) / 2 ^ 59 < (5764607523034235 + 1) * (1 / 2 ^ 59) := by
          norm_num
        linarith


/-- An increment of a counter that holds a natural number up to `2^53`:
exact below `2^53`, without effect at `2^53`. -/
theorem f64add_one (n : ℕ) (hn : n ≤ 2 ^ 53) :
    f64add (.finite (n : ℚ)) (.finite 1) = .finite ((min (n + 1) (2 ^ 53) : ℕ) : ℚ) := by
  simp only [f64add]
  rcases Nat.lt_or_ge n (2 ^ 53) with hlt | hge
  · have h := round64_natCast (n + 1) (by omega)
    rw [Nat.min_eq_left (by omega)]
    rw [← h]; push_cast; rfl
  · have hn53 : n = 2 ^ 53 := by omega
    rw [Nat.min_eq_right (by omega), hn53]
    exact round64_saturate

theorem failedLines_le {F C B σ : Type} [Zero F] (ParseFloat : String → Option F)
    (Marshal : UserApps F → Option B) (set : C → Item B → σ → Bool × σ)
    (clients : List (String × C)) (lines : List String) (st : σ) :
    failedLines ParseFloat Marshal set clients lines st ≤ lines.length := by
  induction lines generalizing st with
  | nil => simp [failedLines]
  | cons line rest ih =>
    simp only [failedLines, List.length_cons]
    split
    · exact Nat.succ_le_succ (ih _)
    · split
      · exact Nat.le_succ_of_le (ih _)
      · exact Nat.succ_le_succ (ih _)

/-- The counters after the scanning loop: the numbers of lines read and of
lines failed, added to the initial values, each capped at `2^53`. -/
theorem scanLines_counts {F C B σ : Type} [Zero F] (ParseFloat : String → Option F)
    (Marshal : UserApps F → Option B) (set : C → Item B → σ → Bool × σ)
    (clients : List (String × C)) (lines : List String) (p0 f0 : ℕ) (st : σ)
    (hp0 : p0 ≤ 2 ^ 53) (hf0 : f0 ≤ 2 ^ 53) :
    (scanLines ParseFloat Marshal set clients lines (.finite p0) (.finite f0) st).1 =
      .finite ((min (p0 + lines.length) (2 ^ 53) : ℕ) : ℚ) ∧
    (scanLines ParseFloat Marshal set clients lines (.finite p0) (.finite f0) st).2.1 =
      .finite ((min (f0 + failedLines ParseFloat Marshal set clients lines st) (2 ^ 53) : ℕ) : ℚ) := by
  induction lines generalizing p0 f0 st with
  | nil =>
    have hp1 : p0 ≤ 9007199254740992 := by norm_num at hp0; exact hp0
    have hf1 : f0 ≤ 9007199254740992 := by norm_num at hf0; exact hf0
    simp [scanLines, failedLines, hp1, hf1]
  | cons line rest ih =>
    have hmin : ∀ a b : ℕ, min (min (a + 1) (2 ^ 53) + b) (2 ^ 53) = min (a + (b + 1)) (2 ^ 53) := by
      intro a b; omega
    simp only [scanLines, failedLines, List.length_cons, f64add_one p0 hp0, f64add_one f0 hf0]
    split
    · obtain ⟨h1, h2⟩ := ih (min (p0 + 1) (2 ^ 53)) (min (f0 + 1) (2 ^ 53)) st
        (Nat.min_le_right _ _) (Nat.min_le_right _ _)
      rw [h1, h2, hmin, hmin]
      exact ⟨rfl, rfl⟩
    · split
      · obtain ⟨h1, h2⟩ := ih (min (p0 + 1) (2 ^ 53)) f0
          (InsertAppsInstalled Marshal set clients _ st).2.1 (Nat.min_le_right _ _) hf0
        rw [h1, h2, hmin]
        exact ⟨rfl, rfl⟩
      · obtain ⟨h1, h2⟩ := ih (min (p0 + 1) (2 ^ 53)) (min (f0 + 1) (2 ^ 53))
          (InsertAppsInstalled Marshal set clients _ st).2.1
          (Nat.min_le_right _ _) (Nat.min_le_right _ _)
        rw [h1, h2, hmin, hmin]
        exact ⟨rfl, rfl⟩

/-- The error-rate test on counters that hold natural numbers `f ≤ p ≤ 2^53`. -/
theorem highErrorRate_iff (p f : ℕ) (hp : p ≤ 2 ^ 53) (hf : f ≤ p) :
    highErrorRate (.finite p) (.finite f) = true ↔ 0 < p ∧ p < 100 * f := by
  unfold highErrorRate
  simp only [Bool.and_eq_true]
  rcases Nat.eq_zero_or_pos p with h0 | hpos
  · subst h0; simp [f64gt]
  · rw [errorRate_gt p f hpos hp hf]
    have : (0 : ℚ) < p := by exact_mod_cast hpos
    simp [f64gt, this, hpos]

/-- The rate `f / p` exceeds `1/100` exactly when `100 * f` exceeds `p`. -/
theorem rate_iff (p f : ℕ) :
    (0 < p ∧ (1 : ℚ) / 100 < (f : ℚ) / (p : ℚ)) ↔ (0 < p ∧ p < 100 * f) := by
  constructor
  · rintro ⟨hpos, hlt⟩
    refine ⟨hpos, ?_⟩
    have hpq : (0 : ℚ) < (p : ℚ) := by exact_mod_cast hpos
    rw [lt_div_iff₀ hpq] at hlt
    have : (p : ℚ) < 100 * (f : ℚ) := by linarith
    exact_mod_cast this
  · rintro ⟨hpos, hlt⟩
    refine ⟨hpos, ?_⟩
    have hpq : (0 : ℚ) < (p : ℚ) := by exact_mod_cast hpos
    rw [lt_div_iff₀ hpq]
    have : (p : ℚ) < 100 * (f : ℚ) := by exact_mod_cast hlt
    linarith

/-- C5: after all lines are read the counter `processed` holds the number
of lines and `failed` the number of failed lines (each capped at `2^53`,
where a float64 counter stops growing); with `p` and `f` these two values,
`ProcessFile` takes the high-error-rate branch if and only if `p > 0` and
`f / p > 1/100`, equivalently `100 * f > p`.  The boundary is exclusive:
with 100 lines, 2 failures abort and 1 failure completes; with no line the
file completes. -/
theorem ProcessFile_error_rate {F C B σ : Type} [Zero F] (ParseFloat : String → Option F)
    (Marshal : UserApps F → Option B) (set : C → Item B → σ → Bool × σ)
    (clients : List (String × C)) (lines : List String) (st : σ) :
    (ProcessFile ParseFloat Marshal set clients lines st).2.1 =
      .finite ((min lines.length (2 ^ 53) : ℕ) : ℚ) ∧
    (ProcessFile ParseFloat Marshal set clients lines st).2.2.1 =
      .finite ((min (failedLines ParseFloat Marshal set clients lines st) (2 ^ 53) : ℕ) : ℚ) ∧
    ((ProcessFile ParseFloat Marshal set clients lines st).1 = .aborted ↔
      0 < min lines.length (2 ^ 53) ∧
      (1 : ℚ) / 100 <
        ((min (failedLines ParseFloat Marshal set clients lines st) (2 ^ 53) : ℕ) : ℚ) /
          ((min lines.length (2 ^ 53) : ℕ) : ℚ)) ∧
    ((ProcessFile ParseFloat Marshal set clients lines st).1 = .aborted ↔
      0 < min lines.length (2 ^ 53) ∧
      min lines.length (2 ^ 53) <
        100 * min (failedLines ParseFloat Marshal set clients lines st) (2 ^ 53)) ∧
    (lines.length ≤ 2 ^ 53 →
      ((ProcessFile ParseFloat Marshal set clients lines st).1 = .aborted ↔
        0 < lines.length ∧
        lines.length < 100 * failedLines ParseFloat Marshal set clients lines st)) ∧
    ((ProcessFile ParseFloat Marshal set clients lines st).1 = .aborted ∨
      (ProcessFile ParseFloat Marshal set clients lines st).1 = .completed) ∧
    highErrorRate (.finite 100) (.finite 2) = true ∧
    highErrorRate (.finite 100) (.finite 1) = false ∧
    highErrorRate (.finite 0) (.finite 0) = false := by
  obtain ⟨hc1, hc2⟩ := scanLines_counts ParseFloat Marshal set clients lines 0 0 st
    (by norm_num) (by norm_num)
  simp only [Nat.cast_zero, Nat.zero_add] at hc1 hc2
  have hfl := failedLines_le ParseFloat Marshal set clients lines st
  have hle : min (failedLines ParseFloat Marshal set clients lines st) (2 ^ 53) ≤
      min lines.length (2 ^ 53) := by omega
  have hiff := highErrorRate_iff (min lines.length (2 ^ 53))
    (min (failedLines ParseFloat Marshal set clients lines st) (2 ^ 53))
    (Nat.min_le_right _ _) hle
  have hbranch : (ProcessFile ParseFloat Marshal set clients lines st).1 = .aborted ↔
      highErrorRate (.finite ((min lines.length (2 ^ 53) : ℕ) : ℚ))
        (.finite ((min (failedLines ParseFloat Marshal set clients lines st) (2 ^ 53) : ℕ) : ℚ))
        = true := by
    unfold ProcessFile
    simp only [hc1, hc2]
    split <;> simp_all
  have hP : (ProcessFile ParseFloat Marshal set clients lines st).2 =
      scanLines ParseFloat Marshal set clients lines (.finite 0) (.finite 0) st := by
    unfold ProcessFile
    dsimp only
    split <;> rfl
  refine ⟨by rw [hP]; exact hc1, by rw [hP]; exact hc2, ?_, hbranch.trans hiff, ?_, ?_, ?_, ?_, ?_⟩
  · rw [hbranch, hiff]
    exact (rate_iff _ _).symm
  · intro hlen
    rw [hbranch, hiff, Nat.min_eq_left hlen, Nat.min_eq_left (le_trans hfl hlen)]
  · unfold ProcessFile
    dsimp only
    split
    · exact Or.inl rfl
    · exact Or.inr rfl
  · have := (highErrorRate_iff 100 2 (by norm_num) (by norm_num)).2 ⟨by norm_num, by norm_num⟩
    simpa using this
  · have h := highErrorRate_iff 100 1 (by norm_num) (by norm_num)
    have hne : ¬ (highErrorRate (.finite ((100 : ℕ) : ℚ)) (.finite ((1 : ℕ) : ℚ)) = true) := by
      rw [h]; norm_num
    simpa using hne
  · have h := highErrorRate_iff 0 0 (by norm_num) (by norm_num)
    have hne : ¬ (highErrorRate (.finite ((0 : ℕ) : ℚ)) (.finite ((0 : ℕ) : ℚ)) = true) := by
      rw [h]; norm_num
    simpa using hne

set_option maxRecDepth 100000 in
theorem ProcessFile_error_rate_witness :
    (ProcessFile decimalLiteral some (scriptedSet (fun _ => true)) mainClients
      (List.replicate 98 "idfa\tabc123\t55.55\t37.37\t42,43" ++ List.replicate 2 "bad line") 0).1 =
      .aborted ∧
    (ProcessFile decimalLiteral some (scriptedSet (fun _ => true)) mainClients
      (List.replicate 99 "idfa\tabc123\t55.55\t37.37\t42,43" ++ List.replicate 1 "bad line") 0).1 =
      .completed ∧
    (ProcessFile decimalLiteral some (scriptedSet (fun _ => true)) mainClients [] 0).1 =
      .completed := by
  have h2 := (ProcessFile_error_rate decimalLiteral some (scriptedSet (fun _ => true)) mainClients
    (List.replicate 98 "idfa\tabc123\t55.55\t37.37\t42,43" ++ List.replicate 2 "bad line")
    0).2.2.2.2
  have h1 := (ProcessFile_error_rate decimalLiteral some (scriptedSet (fun _ => true)) mainClients
    (List.replicate 99 "idfa\tabc123\t55.55\t37.37\t42,43" ++ List.replicate 1 "bad line")
    0).2.2.2.2
  have h0 := (ProcessFile_error_rate decimalLiteral some (scriptedSet (fun _ => true)) mainClients
    [] 0).2.2.2.2
  have f2 : failedLines decimalLiteral some (scriptedSet (fun _ => true)) mainClients
    (List.replicate 98 "idfa\tabc123\t55.55\t37.37\t42,43" ++ List.replicate 2 "bad line")
    0 = 2 := by decide
  have f1 : failedLines decimalLiteral some (scriptedSet (fun _ => true)) mainClients
    (List.replicate 99 "idfa\tabc123\t55.55\t37.37\t42,43" ++ List.replicate 1 "bad line")
    0 = 1 := by decide
  refine ⟨?_, ?_, ?_⟩
  · rw [h2.1 (by simp), f2]; simp
  · have hn : ¬ ((ProcessFile decimalLiteral some (scriptedSet (fun _ => true)) mainClients
        (List.replicate 99 "idfa\tabc123\t55.55\t37.37\t42,43" ++ List.replicate 1 "bad line")
        0).1 = .aborted) := by
      rw [h1.1 (by simp), f1]; simp
    rcases h1.2.1 with h | h
    · exact absurd h hn
    · exact h
  · have hn : ¬ ((ProcessFile decimalLiteral some (scriptedSet (fun _ => true)) mainClients
        [] 0).1 = .aborted) := by
      rw [h0.1 (by simp)]; simp
    rcases h0.2.1 with h | h
    · exact absurd h hn
    · exact h

end Memcload
